import Mathlib

/-!
Verification development for the mdns-bridge packet core (decoder, encoder,
filters, bridge dispatch).  The definitions below are a shallow embedding of
the C sources: `dns_decode.c` (name/header/query/RR decoding), `dns_encode.c`
(compression dictionary and packet encoding), `filter.c` (filter lists) and
`bridge.c` (the per-packet receive/dispatch path).  Machine integers are
modelled as `Nat` with explicit `% 256` truncation at byte reads and explicit
16-bit masks where the C code applies them.  Buffers are modelled as total
functions `Nat → Nat`; a separate read-index trace records which packet
indices the decoder touches, so that claims about buffer bounds can be stated.
Heap allocation (list growth, dictionary growth) is modelled as always
succeeding; the C out-of-memory paths are per-packet drops that no claim
depends on.
-/

set_option maxRecDepth 100000
set_option maxHeartbeats 4000000

/-- A received or outbound datagram: the current byte count (`packet->bytes`)
and the buffer contents.  The C buffer is a fixed 9000-byte array; the model
uses a total function so that reads beyond `bytes` (which the C code can
perform) have a definite modelled value. -/
structure Packet where
  bytes : Nat
  buffer : Nat → Nat

/-- Read one byte of a packet buffer (unsigned char access). -/
def Packet.byte (p : Packet) (i : Nat) : Nat := p.buffer i % 256

/-- Read a 16-bit big-endian (network order) value, as `ntohs` on the two
bytes at offset `i` does. -/
def be16 (p : Packet) (i : Nat) : Nat := p.byte i * 256 + p.byte (i + 1)

/-- `dns_name_t`: the decoded (fully expanded) form of a wire name.
`labels` holds the length-prefixed label bytes including the terminating zero
byte (the meaningful prefix of the C 256-byte array), `offset` the per-label
start positions (the meaningful prefix of the C 128-entry array). -/
structure DnsName where
  length : Nat
  count : Nat
  offset : List Nat
  labels : List Nat
deriving Repr, DecidableEq

/-- `dns_match_name_t`: a filter pattern, length-prefixed label bytes. -/
structure MatchName where
  length : Nat
  labels : List Nat
deriving Repr, DecidableEq

/-- `filter_allow_deny_t`. -/
inductive FilterMode where
  | ALLOW
  | DENY
deriving Repr, DecidableEq

/-- `filter_list_t`: a mode plus the match names (count is the list length). -/
structure FilterList where
  allow_deny : FilterMode
  names : List MatchName
deriving Repr, DecidableEq

/-- `dns_query_t`: owner name, query type, and the offset of the fixed query
header in the source packet (modelling the `data` pointer). -/
structure DnsQuery where
  dataOff : Nat
  qtype : Nat
  name : DnsName
deriving Repr, DecidableEq

/-- `dns_rr_t`: owner name, type, offset of the RR header in the source
packet (the `data` pointer), secondary-data length, and the decoded RDATA
name for the types that carry one (a dummy empty name otherwise, matching
the fact that the C code never reads the stale field for those types). -/
structure DnsRr where
  dataOff : Nat
  rtype : Nat
  secondaryLen : Nat
  name : DnsName
  rdataName : DnsName
deriving Repr, DecidableEq

/-- The decoder's parsed output: kept queries and kept resource records per
section (answer, authority, additional), in packet order. -/
structure Parse where
  queries : List DnsQuery
  ans : List DnsRr
  auth : List DnsRr
  add : List DnsRr
deriving Repr, DecidableEq

/-- `IS_LABEL_POINTER`: the top two bits of the length byte are set. -/
def IS_LABEL_POINTER (len : Nat) : Bool := len &&& 0xC0 == 0xC0

/-- `POINTER_OFFSET`: the 14-bit target of a compression pointer. -/
def POINTER_OFFSET (hb lb : Nat) : Nat := ((hb &&& 0x3F) <<< 8) ||| lb

/-- Output of a name decode: the result (`none` models the C return value 0,
drop), the packet indices read, and the compression pointers encountered as
(position of the pointer, target offset) pairs. -/
structure NOut where
  res : Option (DnsName × Nat)
  reads : List Nat
  ptrs : List (Nat × Nat)
deriving Repr, DecidableEq

/-- The loop body of `dns_decode_name`.  The C `while (1)` loop terminates
because every iteration either consumes a label (and the label count is
capped at 127) or follows a pointer to a strictly smaller offset; the `gas`
parameter is a structural bound on that lexicographic measure, initialised
by `dns_decode_name` with a value the loop can never exhaust (see
`decodeNameLoop_gas`). -/
def decodeNameLoop (p : Packet) :
    Nat → Nat → Nat → Bool → List Nat → List Nat → Nat → List Nat →
    List (Nat × Nat) → NOut
  | 0, _, _, _, _, _, _, reads, ptrs => ⟨none, reads, ptrs⟩
  | gas + 1, labelOffset, packetOffset, compressed, labels, offsets,
      labelCount, reads, ptrs =>
    let labelLen := p.byte labelOffset
    let reads := reads ++ [labelOffset]
    if IS_LABEL_POINTER labelLen then
      let lb := p.byte (labelOffset + 1)
      let reads := reads ++ [labelOffset + 1]
      let pointer := POINTER_OFFSET labelLen lb
      let ptrs := ptrs ++ [(labelOffset, pointer)]
      -- bounds check: must be after the dns header and before the current label
      if pointer < 12 ∨ labelOffset ≤ pointer then ⟨none, reads, ptrs⟩
      else
        let packetOffset := if compressed then packetOffset else packetOffset + 2
        decodeNameLoop p gas pointer packetOffset true labels offsets labelCount
          reads ptrs
    else
      -- record the offset of the label in the name
      let offsets := offsets ++ [labels.length]
      let labelCount := labelCount + 1
      if 127 < labelCount then ⟨none, reads, ptrs⟩
      else if labelLen = 0 then
        let labels := labels ++ [0]
        let packetOffset := if compressed then packetOffset else packetOffset + 1
        ⟨some (⟨labels.length, labelCount, offsets, labels⟩, packetOffset),
          reads, ptrs⟩
      else
        let copyLen := labelLen + 1
        if p.bytes < labelOffset + copyLen + 1 ∨
            256 < labels.length + copyLen + 1 then ⟨none, reads, ptrs⟩
        else
          let chunk := (List.range copyLen).map (fun j => p.byte (labelOffset + j))
          let reads := reads ++ (List.range copyLen).map (fun j => labelOffset + j)
          let labels := labels ++ chunk
          let packetOffset :=
            if compressed then packetOffset else packetOffset + copyLen
          decodeNameLoop p gas (labelOffset + copyLen) packetOffset compressed
            labels offsets labelCount reads ptrs

/-- `dns_decode_name`: decode a possibly compressed name starting at
`off`.  The initial gas `off + 32769` dominates the loop's lexicographic
measure `labelOffset + 256 * (128 - labelCount)`, so the gas-exhausted
branch is unreachable. -/
def dns_decode_name (p : Packet) (off : Nat) : NOut :=
  decodeNameLoop p (off + 32769) off off false [] [] 0 [] []

/-- Build a packet buffer from a byte list (bytes past the received length
model the stale remainder of the C array as zero). -/
def bufOf (l : List Nat) : Nat → Nat := fun i => l.getD i 0

/-- Build a packet from its byte list. -/
def pktOf (l : List Nat) : Packet := ⟨l.length, bufOf l⟩

example :
    (dns_decode_name (pktOf [0, 0, 0, 0, 0, 0, 0, 0, 0, 0, 0, 0, 1, 97, 0]) 12).res
      = some (⟨3, 2, [0, 2], [1, 97, 0]⟩, 15) := by decide

/-- `memmem(hay, hay_len, needle, needle_len)` viewed as a Boolean: does the
needle occur as a contiguous byte substring of the haystack? -/
def memmemB (hay needle : List Nat) : Bool :=
  (List.range (hay.length + 1)).any
    (fun i => (hay.drop i).take needle.length == needle)

/-- `dns_subset_match`: the match name's bytes occur contiguously inside the
name's label bytes (the C code hands `memmem` the first `length` bytes of
each). -/
def dns_subset_match (name : DnsName) (subset : MatchName) : Bool :=
  memmemB (name.labels.take name.length) (subset.labels.take subset.length)

/-- `filter_list_allowed`: ALLOW admits a name iff some match name occurs in
it, DENY admits a name iff no match name occurs in it. -/
def filter_list_allowed (fl : FilterList) (name : DnsName) : Bool :=
  let m := fl.names.any (fun s => dns_subset_match name s)
  (m && fl.allow_deny == FilterMode.ALLOW) ||
    (!m && fl.allow_deny == FilterMode.DENY)

/-- `allowed_inbound`: the global filter list (if any) must admit the name,
and then the interface inbound filter list (if any) must admit it. -/
def allowed_inbound (gfl ifl : Option FilterList) (name : DnsName) : Bool :=
  let allowed := match gfl with
    | some g => filter_list_allowed g name
    | none => true
  if allowed then
    match ifl with
    | some f => filter_list_allowed f name
    | none => true
  else allowed

/-- `allowed_outbound`: a null filter list admits everything. -/
def allowed_outbound (fl : Option FilterList) (name : DnsName) : Bool :=
  match fl with
  | some f => filter_list_allowed f name
  | none => true

/-- Result of `dns_decode_header`: next offset (12), the four advertised
section counts, and the (possibly grown) scratch-array capacities. -/
structure HdrOut where
  offset : Nat
  qc : Nat
  an : Nat
  au : Nat
  ad : Nat
  allocQ : Nat
  allocR : Nat
deriving Repr, DecidableEq

/-- `dns_decode_header`: reject short packets, read the four counts, grow
the query and RR scratch arrays (failing on the hard caps 1498 and 749;
allocation itself is modelled as always succeeding). -/
def dns_decode_header (allocQ allocR : Nat) (p : Packet) : Option HdrOut :=
  if p.bytes < 12 then none
  else
    let qc := be16 p 4
    let an := be16 p 6
    let au := be16 p 8
    let ad := be16 p 10
    match (if allocQ < qc then (if 1498 < qc then none else some qc)
           else some allocQ) with
    | none => none
    | some allocQ =>
      let trr := an + au + ad
      match (if allocR < trr then (if 749 < trr then none else some trr)
             else some allocR) with
      | none => none
      | some allocR => some ⟨12, qc, an, au, ad, allocQ, allocR⟩

/-- Output of a section decode: the kept records with the next offset
(`none` models the C return value 0, drop), plus the read trace, the
compression-pointer trace and the list of unsupported-type log notices. -/
structure SOut (α : Type) where
  res : Option (α × Nat)
  reads : List Nat
  ptrs : List (Nat × Nat)
  unsup : List Nat
deriving Repr, DecidableEq

/-- The inbound filter decision of the `dns_decode_queries` switch: SRV, TXT,
SVCB, HTTPS and ANY are filtered on the owner name; A, AAAA, PTR, OPT pass;
every other type is dropped (and logged, see `dns_decode_queries`). -/
def dns_decode_query_allowed (gfl ifl : Option FilterList) (qtype : Nat)
    (name : DnsName) : Bool :=
  if qtype = 33 ∨ qtype = 16 ∨ qtype = 64 ∨ qtype = 65 ∨ qtype = 255 then
    allowed_inbound gfl ifl name
  else if qtype = 1 ∨ qtype = 28 ∨ qtype = 12 ∨ qtype = 41 then true
  else false

/-- Query types the `dns_decode_queries` switch recognises; the default case
logs an unsupported-type notice. -/
def query_type_supported (qtype : Nat) : Bool :=
  qtype = 33 ∨ qtype = 16 ∨ qtype = 64 ∨ qtype = 65 ∨ qtype = 255 ∨
    qtype = 1 ∨ qtype = 28 ∨ qtype = 12 ∨ qtype = 41

/-- `dns_decode_queries`: decode `count` queries starting at `off`, applying
inbound filtering; any name-decode failure or truncated query header drops
the whole packet.  The unsupported-type notice is recorded in `unsup`; the C
code emits it unconditionally (it never consults the warn flag). -/
def dns_decode_queries (gfl ifl : Option FilterList) (p : Packet) :
    Nat → Nat → SOut (List DnsQuery)
  | 0, off => ⟨some ([], off), [], [], []⟩
  | count + 1, off =>
    let n := dns_decode_name p off
    match n.res with
    | none => ⟨none, n.reads, n.ptrs, []⟩
    | some (name, off) =>
      if p.bytes < off + 4 then ⟨none, n.reads, n.ptrs, []⟩
      else
        let qtype := be16 p off
        let q : DnsQuery := ⟨off, qtype, name⟩
        let allowed := dns_decode_query_allowed gfl ifl qtype name
        let unsup0 := if query_type_supported qtype then [] else [qtype]
        let rest := dns_decode_queries gfl ifl p count (off + 4)
        { res := match rest.res with
            | none => none
            | some (qs, finalOff) =>
              some ((if allowed then [q] else []) ++ qs, finalOff)
          reads := n.reads ++ [q.dataOff, q.dataOff + 1] ++ rest.reads
          ptrs := n.ptrs ++ rest.ptrs
          unsup := unsup0 ++ rest.unsup }

/-- RR types the `dns_decode_rrs` switch recognises; the default case logs an
unsupported-type notice. -/
def rr_type_supported (rtype : Nat) : Bool :=
  rtype = 33 ∨ rtype = 16 ∨ rtype = 13 ∨ rtype = 64 ∨ rtype = 65 ∨
    rtype = 12 ∨ rtype = 5 ∨ rtype = 39 ∨
    rtype = 1 ∨ rtype = 28 ∨ rtype = 41 ∨ rtype = 47

/-- A dummy name modelling the stale `rdata_name` field of records whose type
does not fill it (the C code never reads it for those types). -/
def emptyName : DnsName := ⟨0, 0, [], []⟩

/-- One iteration of the `dns_decode_rrs` loop: decode one resource record
starting at `off`, applying inbound filtering.  SRV, TXT, HINFO, SVCB, HTTPS
are filtered on the owner name; PTR, CNAME, DNAME decode and filter on the
RDATA name (which must fill the RDATA exactly); A, AAAA, OPT, NSEC pass; any
other type is dropped with an unsupported-type notice.  Kept SRV records
decode their target name after the fixed 6-byte prefix; kept NSEC records
decode their next-name and record the remaining bitmap length.  The result is
the kept record (or `none` when the record was filtered or unsupported) and
the next offset; an outer `none` drops the whole packet. -/
def decodeRrStep (gfl ifl : Option FilterList) (p : Packet) (off : Nat) :
    SOut (Option DnsRr) :=
  let n := dns_decode_name p off
  match n.res with
  | none => ⟨none, n.reads, n.ptrs, []⟩
  | some (name, off) =>
    if p.bytes < off + 10 then ⟨none, n.reads, n.ptrs, []⟩
    else
      let dataOff := off
      let off := off + 10
      let rtype := be16 p dataOff
      let dataLen := be16 p (dataOff + 8)
      let hdrReads := [dataOff, dataOff + 1, dataOff + 8, dataOff + 9]
      if dataLen = 0 ∨ p.bytes < off + dataLen then
        ⟨none, n.reads ++ hdrReads, n.ptrs, []⟩
      else
        -- the source filter switch
        let step : Option (Bool × DnsName × NOut) :=
          if rtype = 33 ∨ rtype = 16 ∨ rtype = 13 ∨ rtype = 64 ∨ rtype = 65 then
            some (allowed_inbound gfl ifl name, emptyName, ⟨some (emptyName, 0), [], []⟩)
          else if rtype = 12 ∨ rtype = 5 ∨ rtype = 39 then
            let t := dns_decode_name p off
            match t.res with
            | some (rn, tOff) =>
              if tOff = off + dataLen then
                some (allowed_inbound gfl ifl rn, rn, t)
              else none
            | none => none
          else some (true, emptyName, ⟨some (emptyName, 0), [], []⟩)
        match step with
        | none =>
          let t := dns_decode_name p off
          ⟨none, n.reads ++ hdrReads ++ t.reads, n.ptrs ++ t.ptrs, []⟩
        | some (allowed0, rdataName0, t0) =>
          let allowed := if rr_type_supported rtype then allowed0 else false
          let unsup0 := if rr_type_supported rtype then ([] : List Nat) else [rtype]
          -- additional processing for kept records with names in the rdata
          let step2 : Option (Nat × DnsName × NOut) :=
            if allowed then
              if rtype = 33 then
                let t := dns_decode_name p (off + 6)
                match t.res with
                | some (rn, tOff) =>
                  if tOff = off + dataLen then some (6, rn, t) else none
                | none => none
              else if rtype = 47 then
                let t := dns_decode_name p off
                match t.res with
                | some (rn, tOff) =>
                  if tOff ≤ off + dataLen then
                    some (dataLen - (tOff - off), rn, t)
                  else none
                | none => none
              else some (0, rdataName0, ⟨some (emptyName, 0), [], []⟩)
            else some (0, rdataName0, ⟨some (emptyName, 0), [], []⟩)
          match step2 with
          | none =>
            let t := dns_decode_name p (if rtype = 33 then off + 6 else off)
            ⟨none, n.reads ++ hdrReads ++ t0.reads ++ t.reads,
              n.ptrs ++ t0.ptrs ++ t.ptrs, unsup0⟩
          | some (secondaryLen, rdataName, t2) =>
            let rr : DnsRr := ⟨dataOff, rtype, secondaryLen, name, rdataName⟩
            ⟨some ((if allowed then some rr else none), off + dataLen),
              n.reads ++ hdrReads ++ t0.reads ++ t2.reads,
              n.ptrs ++ t0.ptrs ++ t2.ptrs, unsup0⟩

/-- `dns_decode_rrs`: decode `count` resource records of one section,
keeping the surviving ones in packet order; any per-record failure drops the
whole packet. -/
def dns_decode_rrs (gfl ifl : Option FilterList) (p : Packet) :
    Nat → Nat → SOut (List DnsRr)
  | 0, off => ⟨some ([], off), [], [], []⟩
  | count + 1, off =>
    let s := decodeRrStep gfl ifl p off
    match s.res with
    | none => ⟨none, s.reads, s.ptrs, s.unsup⟩
    | some (kept, off1) =>
      let rest := dns_decode_rrs gfl ifl p count off1
      { res := match rest.res with
          | none => none
          | some (rrs, finalOff) => some (kept.toList ++ rrs, finalOff)
        reads := s.reads ++ rest.reads
        ptrs := s.ptrs ++ rest.ptrs
        unsup := s.unsup ++ rest.unsup }

/-- Output of a whole-packet decode. -/
structure POut where
  res : Option Parse
  reads : List Nat
  ptrs : List (Nat × Nat)
  unsup : List Nat
deriving Repr, DecidableEq

/-- `dns_decode_packet`: header, queries, the three RR sections, then the
exact-length check and the everything-filtered check; any failure drops the
packet (`none`). -/
def dns_decode_packet (allocQ allocR : Nat) (gfl ifl : Option FilterList)
    (p : Packet) : POut :=
  match dns_decode_header allocQ allocR p with
  | none => ⟨none, [], [], []⟩
  | some h =>
    let hdrReads := [4, 5, 6, 7, 8, 9, 10, 11]
    let q := dns_decode_queries gfl ifl p h.qc 12
    match q.res with
    | none => ⟨none, hdrReads ++ q.reads, q.ptrs, q.unsup⟩
    | some (qs, off) =>
      let s1 := dns_decode_rrs gfl ifl p h.an off
      match s1.res with
      | none =>
        ⟨none, hdrReads ++ q.reads ++ s1.reads, q.ptrs ++ s1.ptrs,
          q.unsup ++ s1.unsup⟩
      | some (ans, off) =>
        let s2 := dns_decode_rrs gfl ifl p h.au off
        match s2.res with
        | none =>
          ⟨none, hdrReads ++ q.reads ++ s1.reads ++ s2.reads,
            q.ptrs ++ s1.ptrs ++ s2.ptrs, q.unsup ++ s1.unsup ++ s2.unsup⟩
        | some (auth, off) =>
          let s3 := dns_decode_rrs gfl ifl p h.ad off
          let reads := hdrReads ++ q.reads ++ s1.reads ++ s2.reads ++ s3.reads
          let ptrs := q.ptrs ++ s1.ptrs ++ s2.ptrs ++ s3.ptrs
          let unsup := q.unsup ++ s1.unsup ++ s2.unsup ++ s3.unsup
          match s3.res with
          | none => ⟨none, reads, ptrs, unsup⟩
          | some (add, off) =>
            if off ≠ p.bytes then ⟨none, reads, ptrs, unsup⟩
            else if qs = [] ∧ ans = [] ∧ auth = [] ∧ add = [] then
              ⟨none, reads, ptrs, unsup⟩
            else ⟨some ⟨qs, ans, auth, add⟩, reads, ptrs, unsup⟩

example :
    (dns_decode_packet 25 50 none none
        (pktOf [0, 1, 2, 3, 0, 1, 0, 0, 0, 0, 0, 0, 1, 97, 0, 0, 12, 0, 1])).res
      = some ⟨[⟨15, 12, ⟨3, 2, [0, 2], [1, 97, 0]⟩⟩], [], [], []⟩ := by decide

/-- `compression_entry_t`: a dictionary entry.  The `label` pointer is
modelled as the byte suffix it points at (length byte first); only the first
`label[0] + 1` bytes are ever compared.  `pointer` is the pre-masked 16-bit
wire back-pointer value (`0xC000 ||| offset`), nonzero exactly when the label
has been emitted into the current outbound packet. -/
structure CEntry where
  label : List Nat
  childIndex : Nat
  childAllocated : Nat
  childUsed : Nat
  pointer : Nat
deriving Repr, DecidableEq

/-- An all-zero dictionary entry (fresh storage). -/
def zeroEntry : CEntry := ⟨[], 0, 0, 0, 0⟩

/-- The `clist_initializer` seed: root → `local` → `_tcp`, with the padding
slots.  No seed entry carries an emitted pointer. -/
def seedClist : List CEntry :=
  [⟨[], 1, 1, 1, 0⟩,
   ⟨[5, 0x6c, 0x6f, 0x63, 0x61, 0x6c], 2, 2, 1, 0⟩,
   ⟨[4, 0x5f, 0x74, 0x63, 0x70], 4, 4, 0, 0⟩,
   zeroEntry, zeroEntry, zeroEntry, zeroEntry, zeroEntry]

/-- The label comparison of `clist_get_child`: first bytes equal and the next
`label[0]` bytes equal. -/
def labelEqB (a b : List Nat) : Bool :=
  a.headD 0 == b.headD 0 &&
    (a.drop 1).take (a.headD 0) == (b.drop 1).take (a.headD 0)

/-- The search loop of `clist_get_child` over a parent's child range. -/
def findChildIdx (cl : List CEntry) (label : List Nat) :
    Nat → Nat → Option Nat
  | _, 0 => none
  | idx, used + 1 =>
    if labelEqB label (cl.getD idx zeroEntry).label then some idx
    else findChildIdx cl label (idx + 1) used

/-- `clist_open`: insert `count` fresh zero entries at `index`, shifting the
tail and bumping every stored child index at or past `index` (array growth
itself always succeeds in the model). -/
def clist_open (cl : List CEntry) (index count : Nat) : List CEntry × Nat :=
  if index < cl.length then
    let cl := cl.map (fun e =>
      if index ≤ e.childIndex then { e with childIndex := e.childIndex + count }
      else e)
    (cl.take index ++ List.replicate count zeroEntry ++ cl.drop index, index)
  else
    (cl ++ List.replicate count zeroEntry, index)

/-- The space-making step of `clist_get_child`'s insertion path: when the
parent's child range is full, open room (doubling the child allocation) and
credit the parent; the second component is the slot for the new child. -/
def clist_makeRoom (cl1 : List CEntry) (parent : Nat) : List CEntry × Nat :=
  if (cl1.getD parent zeroEntry).childAllocated
      ≤ (cl1.getD parent zeroEntry).childUsed then
    ((clist_open cl1
        ((cl1.getD parent zeroEntry).childIndex
          + (cl1.getD parent zeroEntry).childUsed)
        (if (cl1.getD parent zeroEntry).childAllocated ≠ 0 then
          (cl1.getD parent zeroEntry).childAllocated else 1)).1.set parent
      { (clist_open cl1
          ((cl1.getD parent zeroEntry).childIndex
            + (cl1.getD parent zeroEntry).childUsed)
          (if (cl1.getD parent zeroEntry).childAllocated ≠ 0 then
            (cl1.getD parent zeroEntry).childAllocated else 1)).1.getD parent
          zeroEntry with
        childAllocated := ((clist_open cl1
          ((cl1.getD parent zeroEntry).childIndex
            + (cl1.getD parent zeroEntry).childUsed)
          (if (cl1.getD parent zeroEntry).childAllocated ≠ 0 then
            (cl1.getD parent zeroEntry).childAllocated else 1)).1.getD parent
          zeroEntry).childAllocated
          + (if (cl1.getD parent zeroEntry).childAllocated ≠ 0 then
            (cl1.getD parent zeroEntry).childAllocated else 1) },
     (clist_open cl1
        ((cl1.getD parent zeroEntry).childIndex
          + (cl1.getD parent zeroEntry).childUsed)
        (if (cl1.getD parent zeroEntry).childAllocated ≠ 0 then
          (cl1.getD parent zeroEntry).childAllocated else 1)).2)
  else (cl1, (cl1.getD parent zeroEntry).childIndex
    + (cl1.getD parent zeroEntry).childUsed)

/-- The final step of `clist_get_child`'s insertion path: bump the parent's
child count and write the label into the new slot. -/
def clist_place (cl2 : List CEntry) (parent index2 : Nat) (label : List Nat) :
    List CEntry × Nat :=
  ((cl2.set parent { cl2.getD parent zeroEntry with
      childUsed := (cl2.getD parent zeroEntry).childUsed + 1 }).set index2
    { (cl2.set parent { cl2.getD parent zeroEntry with
        childUsed := (cl2.getD parent zeroEntry).childUsed + 1 }).getD index2
        zeroEntry with
      label := label },
   index2)

/-- `clist_get_child`: find `label` among `parent`'s children or append it as
a new child, opening space (and doubling the child allocation) when the child
range is full. -/
def clist_get_child (cl : List CEntry) (parent : Nat) (label : List Nat) :
    List CEntry × Nat :=
  (if (cl.getD parent zeroEntry).childUsed ≠ 0 then
      findChildIdx cl label (cl.getD parent zeroEntry).childIndex
        (cl.getD parent zeroEntry).childUsed
    else none).elim
    (clist_place
      (clist_makeRoom
        (if (cl.getD parent zeroEntry).childAllocated = 0 then
          cl.set parent
            { cl.getD parent zeroEntry with childIndex := cl.length }
        else cl) parent).1 parent
      (clist_makeRoom
        (if (cl.getD parent zeroEntry).childAllocated = 0 then
          cl.set parent
            { cl.getD parent zeroEntry with childIndex := cl.length }
        else cl) parent).2 label)
    (fun idx => (cl, idx))

/-- The outbound packet buffer, written byte by byte. -/
def SendBuf : Type := Nat → Nat

/-- Write one byte. -/
def upd (buf : SendBuf) (i v : Nat) : SendBuf :=
  fun j => if j = i then v else buf j

/-- `memcpy` of a byte list to `off`. -/
def writeList (buf : SendBuf) (off : Nat) : List Nat → SendBuf
  | [] => buf
  | b :: rest => writeList (upd buf off b) (off + 1) rest

/-- Copy `n` bytes from the received packet at `srcOff` to `off` (the
encoder's verbatim copies out of the source buffer). -/
def copyRecv (buf : SendBuf) (off : Nat) (recv : Packet) (srcOff n : Nat) :
    SendBuf :=
  writeList buf off ((List.range n).map (fun j => recv.byte (srcOff + j)))

/-- Write a 16-bit value in network byte order (`htons` plus `memcpy` or a
`uint16_t` store). -/
def writeBe16 (buf : SendBuf) (i v : Nat) : SendBuf :=
  upd (upd buf i (v / 256 % 256)) (i + 1) (v % 256)

/-- `OFFSET_TO_POINTER` without the host byte swap: the logical big-endian
16-bit back-pointer value. -/
def OFFSET_TO_POINTER (off : Nat) : Nat := (off &&& 0x3FFF) ||| 0xC000

/-- Store an emitted-pointer value into a dictionary entry. -/
def setPointer (cl : List CEntry) (i v : Nat) : List CEntry :=
  cl.set i { cl.getD i zeroEntry with pointer := v }

/-- The second loop of `dns_encode_name`: record the remaining inner labels
in the dictionary and give each its emitted-pointer value (`off` is the wire
offset of the name's first byte). -/
def encAddLoop (name : DnsName) (off : Nat) :
    List CEntry → Nat → Nat → List CEntry × Nat
  | cl, child, 0 => (cl, child)
  | cl, child, r + 1 =>
    encAddLoop name off
      (setPointer
        (clist_get_child cl child
          (name.labels.drop (name.offset.getD r 0))).1
        (clist_get_child cl child
          (name.labels.drop (name.offset.getD r 0))).2
        (OFFSET_TO_POINTER (off + name.offset.getD r 0)))
      (clist_get_child cl child
        (name.labels.drop (name.offset.getD r 0))).2 r

/-- The tail of `dns_encode_name` after the search loop found a label with no
emitted pointer: copy the outer labels verbatim, record them in the
dictionary, then emit the found ancestor's back-pointer or the terminating
zero byte. -/
def encNamePart2 (name : DnsName) (cl : List CEntry) (buf : SendBuf)
    (off childIndex nameIndex remaining ancestor : Nat) :
    List CEntry × SendBuf × Nat :=
  let o := name.offset.getD nameIndex 0
  let copyLen := o + name.labels.getD o 0 + 1
  let buf := writeList buf off (name.labels.take copyLen)
  let cl := (encAddLoop name off
    (setPointer cl childIndex (OFFSET_TO_POINTER (off + o)))
    childIndex remaining).1
  let off2 := off + copyLen
  let ap := (cl.getD ancestor zeroEntry).pointer
  if ap ≠ 0 then
    (cl, writeList buf off2 [ap / 256 % 256, ap % 256], off2 + 2)
  else
    (cl, upd buf off2 0, off2 + 1)

/-- The search loop of `dns_encode_name`, walking the name from the root end
through the dictionary; a fully known name becomes a single back-pointer. -/
def encNameLoop (name : DnsName) (buf : SendBuf) (off : Nat) :
    List CEntry → Nat → Nat → List CEntry × SendBuf × Nat
  | cl, _, 0 => (cl, buf, off)
  | cl, parent, r + 1 =>
    let G := clist_get_child cl parent
      (name.labels.drop (name.offset.getD r 0))
    if (G.1.getD G.2 zeroEntry).pointer = 0 then
      encNamePart2 name G.1 buf off G.2 r r parent
    else if r = 0 then
      (G.1, writeList buf off [(G.1.getD G.2 zeroEntry).pointer / 256 % 256,
        (G.1.getD G.2 zeroEntry).pointer % 256], off + 2)
    else
      encNameLoop name buf off G.1 G.2 r

/-- `dns_encode_name`: a root-only name is a bare zero byte; otherwise run
the dictionary search from the root end. -/
def dns_encode_name (cl : List CEntry) (buf : SendBuf) (off : Nat)
    (name : DnsName) : List CEntry × SendBuf × Nat :=
  if name.count ≤ 1 then (cl, upd buf off 0, off + 1)
  else encNameLoop name buf off cl 0 (name.count - 1)

/-- The outbound filter decision of the `dns_encode_queries` switch: SRV, TXT
and ANY are filtered on the owner name; every other query type passes. -/
def dns_encode_query_allowed (fl : Option FilterList) (q : DnsQuery) : Bool :=
  if q.qtype = 33 ∨ q.qtype = 16 ∨ q.qtype = 255 then
    allowed_outbound fl q.name
  else true

/-- `dns_encode_queries`: emit the surviving queries (owner name through the
compression codec, then the 4-byte query header copied from the source
packet); the final component counts the emitted queries. -/
def dns_encode_queries (recv : Packet) (fl : Option FilterList) :
    List CEntry → SendBuf → Nat → List DnsQuery →
    List CEntry × SendBuf × Nat × Nat
  | cl, buf, off, [] => (cl, buf, off, 0)
  | cl, buf, off, q :: rest =>
    if dns_encode_query_allowed fl q then
      let (cl, buf, off) := dns_encode_name cl buf off q.name
      let buf := copyRecv buf off recv q.dataOff 4
      let (cl, buf, off2, c) := dns_encode_queries recv fl cl buf (off + 4) rest
      (cl, buf, off2, c + 1)
    else dns_encode_queries recv fl cl buf off rest

/-- The outbound filter decision of the `dns_encode_rrs` switch: SRV, TXT and
HINFO are filtered on the owner name; PTR, CNAME, DNAME on the RDATA name;
every other type passes. -/
def dns_encode_rr_allowed (fl : Option FilterList) (rr : DnsRr) : Bool :=
  if rr.rtype = 33 ∨ rr.rtype = 16 ∨ rr.rtype = 13 then
    allowed_outbound fl rr.name
  else if rr.rtype = 12 ∨ rr.rtype = 5 ∨ rr.rtype = 39 then
    allowed_outbound fl rr.rdataName
  else true

/-- `dns_encode_rrs`: emit the surviving records of one section: owner name,
8 header bytes (type, class, ttl) copied from the source, per-type RDATA
(names through the compression codec, SRV prefix and NSEC bitmap and opaque
RDATA copied from the source), then the actual emitted RDATA length written
back into the record header. -/
def dns_encode_rrs (recv : Packet) (fl : Option FilterList) :
    List CEntry → SendBuf → Nat → List DnsRr →
    List CEntry × SendBuf × Nat × Nat
  | cl, buf, off, [] => (cl, buf, off, 0)
  | cl, buf, off, rr :: rest =>
    if dns_encode_rr_allowed fl rr then
      let (cl, buf, off) := dns_encode_name cl buf off rr.name
      let hdrOff := off
      let buf := copyRecv buf off recv rr.dataOff 8
      let off := off + 10
      let rdataOff := off
      let (cl, buf, off) :=
        if rr.rtype = 12 ∨ rr.rtype = 5 ∨ rr.rtype = 39 then
          dns_encode_name cl buf off rr.rdataName
        else if rr.rtype = 33 then
          let buf := copyRecv buf off recv (rr.dataOff + 10) rr.secondaryLen
          dns_encode_name cl buf (off + rr.secondaryLen) rr.rdataName
        else if rr.rtype = 47 then
          let (cl, buf, off) := dns_encode_name cl buf off rr.rdataName
          let srcOff := rr.dataOff + 10 + (be16 recv (rr.dataOff + 8) - rr.secondaryLen)
          let buf := copyRecv buf off recv srcOff rr.secondaryLen
          (cl, buf, off + rr.secondaryLen)
        else
          let len := be16 recv (rr.dataOff + 8)
          let buf := copyRecv buf off recv (rr.dataOff + 10) len
          (cl, buf, off + len)
      let buf := writeBe16 buf (hdrOff + 8) (off - rdataOff)
      let (cl, buf, off2, c) := dns_encode_rrs recv fl cl buf off rest
      (cl, buf, off2, c + 1)
    else dns_encode_rrs recv fl cl buf off rest

/-- `dns_encode_packet`: reset the dictionary, emit the four sections with
outbound filtering, return 0 (`none`) when nothing survived, otherwise fill
in the header (transaction id and flags copied from the received packet, the
four emitted counts in network byte order) and return the buffer and byte
count. -/
def dns_encode_packet (parse : Parse) (recv : Packet) (fl : Option FilterList)
    (buf0 : SendBuf) : Option (SendBuf × Nat) :=
  let r1 := dns_encode_queries recv fl seedClist buf0 12 parse.queries
  let r2 := dns_encode_rrs recv fl r1.1 r1.2.1 r1.2.2.1 parse.ans
  let r3 := dns_encode_rrs recv fl r2.1 r2.2.1 r2.2.2.1 parse.auth
  let r4 := dns_encode_rrs recv fl r3.1 r3.2.1 r3.2.2.1 parse.add
  if r1.2.2.2 = 0 ∧ r2.2.2.2 = 0 ∧ r3.2.2.2 = 0 ∧ r4.2.2.2 = 0 then none
  else
    let buf := copyRecv r4.2.1 0 recv 0 4
    let buf := writeBe16 buf 4 r1.2.2.2
    let buf := writeBe16 buf 6 r2.2.2.2
    let buf := writeBe16 buf 8 r3.2.2.2
    let buf := writeBe16 buf 10 r4.2.2.2
    some (buf, r4.2.2.1)

/-- Read `n` bytes starting at 0 from an outbound buffer (what `sendto` puts
on the wire). -/
def readBytes (buf : SendBuf) (n : Nat) : List Nat :=
  (List.range n).map buf

example :
    (match dns_encode_packet ⟨[⟨15, 12, ⟨3, 2, [0, 2], [1, 97, 0]⟩⟩], [], [], []⟩
        (pktOf [0, 1, 2, 3, 0, 1, 0, 0, 0, 0, 0, 0, 1, 97, 0, 0, 12, 0, 1])
        none (fun _ => 0) with
     | some (buf, n) => readBytes buf n
     | none => []) =
      [0, 1, 2, 3, 0, 1, 0, 0, 0, 0, 0, 0, 1, 97, 0, 0, 12, 0, 1] := by decide

/-- A peer interface as the receive path sees it: its outbound filter list
(`none` = no filter).  Filter lists are compared by value here; the C code
compares them by pointer, and the configuration stage interns equal outbound
lists into one shared pointer (`set_interface_outbound_filter_list`), so the
two notions coincide. -/
structure Peer where
  outboundFilter : Option FilterList
deriving Repr, DecidableEq

/-- The ingress interface as the receive path sees it: its inbound filter
list, its peers in peer-list order, the precomputed count of peers without an
outbound filter, and the precomputed list of distinct outbound filter
variants among the peers. -/
structure Iface where
  inboundFilter : Option FilterList
  peerList : List Peer
  peerNofilterCount : Nat
  peerFilterList : List FilterList
deriving Repr, DecidableEq

/-- One `sendto` performed by the receive path: the index of the peer in the
ingress interface's peer list and the datagram bytes. -/
structure SendEvent where
  peer : Nat
  payload : List Nat
deriving Repr, DecidableEq

/-- The byte list a packet holds (what a verbatim forward sends). -/
def Packet.byteList (p : Packet) : List Nat :=
  (List.range p.bytes).map p.buffer

/-- The dispatch loop of the no-outbound-filter branch of `receive`: send the
chosen payload to every peer without an outbound filter, in peer-list
order. -/
def nofilterEvents (peers : List Peer) (payload : List Nat) : List SendEvent :=
  (List.range peers.length).filterMap (fun i =>
    if (peers.getD i ⟨none⟩).outboundFilter = none then
      some ⟨i, payload⟩
    else none)

/-- The dispatch loop of one outbound filter variant: send to every peer
whose outbound filter is that variant. -/
def variantEvents (peers : List Peer) (fl : FilterList) (payload : List Nat) :
    List SendEvent :=
  (List.range peers.length).filterMap (fun i =>
    if (peers.getD i ⟨none⟩).outboundFilter = some fl then
      some ⟨i, payload⟩
    else none)

/-- `receive` (`bridge.c`), as the list of datagrams it dispatches.  When
filtering is enabled the packet is decoded (and dropped on failure); the
worker's stale parse state stands in for the undecoded state otherwise.
Peers without an outbound filter get the received bytes verbatim unless a
global or ingress inbound filter exists, in which case a re-encode with a
null outbound filter replaces them (on the — unreachable in the filtered
path — encode failure the stale send buffer would be sent, as in the C code,
which ignores that encoder's return value).  Then each distinct outbound
filter variant is encoded once and sent to its peers, skipping variants
whose encode returned 0. -/
def receiveSends (filteringEnabled : Bool) (allocQ allocR : Nat)
    (gfl : Option FilterList) (iface : Iface) (recv : Packet)
    (staleParse : Parse) (staleBuf : SendBuf) (staleLen : Nat) :
    List SendEvent :=
  let parseRes : Option Parse :=
    if filteringEnabled then
      (dns_decode_packet allocQ allocR gfl iface.inboundFilter recv).res
    else some staleParse
  match parseRes with
  | none => []
  | some parse =>
    let nofilter :=
      if iface.peerNofilterCount ≠ 0 then
        let payload :=
          if gfl.isSome || iface.inboundFilter.isSome then
            match dns_encode_packet parse recv none staleBuf with
            | some (buf, n) => readBytes buf n
            | none => readBytes staleBuf staleLen
          else recv.byteList
        nofilterEvents iface.peerList payload
      else []
    let variants :=
      if iface.peerFilterList.length ≠ 0 then
        (iface.peerFilterList.map (fun fl =>
          match dns_encode_packet parse recv (some fl) staleBuf with
          | some (buf, n) => variantEvents iface.peerList fl (readBytes buf n)
          | none => [])).flatten
      else []
    nofilter ++ variants

/-! ## Spec-side definitions

These definitions follow the specification's wording and are compared with
the source-derived definitions above. -/

/-- Spec wording: `needle` occurs as a contiguous byte subsequence of
`hay`. -/
def specOccurs (needle hay : List Nat) : Prop :=
  ∃ i, (hay.drop i).take needle.length = needle

/-- Spec wording: a filter list admits a name iff its mode is ALLOW and some
match name occurs contiguously in the name's label bytes, or its mode is DENY
and no match name so occurs. -/
def specAdmits (fl : FilterList) (n : DnsName) : Prop :=
  (fl.allow_deny = FilterMode.ALLOW ∧
    ∃ m ∈ fl.names,
      specOccurs (m.labels.take m.length) (n.labels.take n.length)) ∨
  (fl.allow_deny = FilterMode.DENY ∧
    ∀ m ∈ fl.names,
      ¬ specOccurs (m.labels.take m.length) (n.labels.take n.length))

/-- The number of queries the encoder actually emits for a given outbound
filter. -/
def emittedQueryCount (fl : Option FilterList) (qs : List DnsQuery) : Nat :=
  qs.countP (fun q => dns_encode_query_allowed fl q)

/-- The number of records of one section the encoder actually emits for a
given outbound filter. -/
def emittedRrCount (fl : Option FilterList) (rrs : List DnsRr) : Nat :=
  rrs.countP (fun rr => dns_encode_rr_allowed fl rr)

/-! ## Filter lemmas and claim C5 -/

theorem memmemB_iff (hay needle : List Nat) :
    memmemB hay needle = true ↔ specOccurs needle hay := by
  unfold memmemB specOccurs
  rw [List.any_eq_true]
  constructor
  · rintro ⟨i, _, h⟩
    exact ⟨i, by simpa using h⟩
  · rintro ⟨i, h⟩
    by_cases hi : i ≤ hay.length
    · exact ⟨i, List.mem_range.mpr (by omega), by simpa using h⟩
    · refine ⟨0, List.mem_range.mpr (by omega), ?_⟩
      have hd : hay.drop i = [] := by
        apply List.drop_eq_nil_of_le; omega
      rw [hd] at h
      simp only [List.take_nil] at h
      have : needle.length = 0 := by rw [← h]; rfl
      simp [beq_iff_eq, List.take_of_length_le, this.le, List.length_eq_zero.mp this]

theorem filter_list_allowed_iff (fl : FilterList) (n : DnsName) :
    filter_list_allowed fl n = true ↔ specAdmits fl n := by
  unfold filter_list_allowed specAdmits dns_subset_match
  cases h : fl.allow_deny <;>
    simp [h, List.any_eq_true, memmemB_iff]

/-- C5: `allowed_inbound` returns true iff the global filter list (when
present) admits the name and the interface inbound filter list (when
present) admits it, with "admits" as the spec defines it (ALLOW: some match
name occurs contiguously in the name's label bytes; DENY: none does). -/
theorem C5_allowed_inbound_iff (gfl ifl : Option FilterList) (n : DnsName) :
    allowed_inbound gfl ifl n = true ↔
      (∀ g ∈ gfl, specAdmits g n) ∧ (∀ f ∈ ifl, specAdmits f n) := by
  unfold allowed_inbound
  cases gfl with
  | none =>
    cases ifl with
    | none => simp
    | some f => simp [filter_list_allowed_iff]
  | some g =>
    have hcases :
        filter_list_allowed g n = true ∧ specAdmits g n ∨
          filter_list_allowed g n ≠ true ∧ ¬ specAdmits g n := by
      by_cases hg : filter_list_allowed g n = true
      · exact Or.inl ⟨hg, (filter_list_allowed_iff g n).mp hg⟩
      · exact Or.inr ⟨hg, fun hs => hg ((filter_list_allowed_iff g n).mpr hs)⟩
    cases ifl with
    | none =>
      rcases hcases with ⟨hg, hg'⟩ | ⟨hg, hg'⟩ <;> simp [hg, hg']
    | some f =>
      rcases hcases with ⟨hg, hg'⟩ | ⟨hg, hg'⟩ <;>
        simp [hg, hg', filter_list_allowed_iff]

/-! ## Claim C10 -/

/-- C10: a name with at most one label (the root-only name, just the
terminator) is encoded as exactly one zero byte at the current offset, the
returned offset advances by one, and the compression dictionary is neither
consulted (the result does not depend on it) nor modified (it is returned
unchanged). -/
theorem C10_root_name_encoding (cl : List CEntry) (buf : SendBuf) (off : Nat)
    (name : DnsName) (h : name.count ≤ 1) :
    dns_encode_name cl buf off name = (cl, upd buf off 0, off + 1) := by
  unfold dns_encode_name
  simp [h]

/-- The root-only name: a single terminating zero label. -/
def rootName : DnsName := ⟨1, 1, [0], [0]⟩

theorem C10_root_name_encoding_witness :
    rootName.count ≤ 1 ∧
      dns_encode_name seedClist (fun _ => 0) 12 rootName =
        (seedClist, upd (fun _ => 0) 12 0, 13) :=
  ⟨by decide, C10_root_name_encoding seedClist (fun _ => 0) 12 rootName (by decide)⟩

/-! ## Claim C1 -/

/-- A 12-byte packet: a bare DNS header advertising one query and no
records.  `dns_decode_name` is then invoked at offset 12 and reads
`packet->buffer[12]` — an index at the received byte length — before any
bounds check. -/
def pktC1 : Packet := pktOf [0, 0, 0, 0, 0, 1, 0, 0, 0, 0, 0, 0]

/-- C1, failing input: decoding `pktC1` (length 12, at most 9000) reads
packet-buffer index 12, which is at the received byte length; the packet is
ultimately dropped, but the out-of-received-length read has happened.  (The
name-size half of the claim does hold — see the bounds checks in
`decodeNameLoop` — but the no-read-past-length half does not.) -/
theorem C1_decode_reads_past_received_length :
    pktC1.bytes = 12 ∧
      12 ∈ (dns_decode_packet 25 50 none none pktC1).reads ∧
      (dns_decode_packet 25 50 none none pktC1).res = none := by decide

/-! ## Claim C2 -/

/-- The compression-pointer condition the claim describes: target before the
header or at/after the pointer's own offset. -/
def badPtr (pr : Nat × Nat) : Prop := pr.2 < 12 ∨ pr.1 ≤ pr.2

instance (pr : Nat × Nat) : Decidable (badPtr pr) := by
  unfold badPtr; infer_instance

theorem decodeNameLoop_ptrs_ok (p : Packet) :
    ∀ gas lo po c labels offsets lc reads ptrs0,
      (decodeNameLoop p gas lo po c labels offsets lc reads ptrs0).res ≠ none →
      (∀ pr ∈ ptrs0, ¬ badPtr pr) →
      ∀ pr ∈ (decodeNameLoop p gas lo po c labels offsets lc reads ptrs0).ptrs,
        ¬ badPtr pr := by
  intro gas
  induction gas with
  | zero => intro lo po c labels offsets lc reads ptrs0 hres; simp [decodeNameLoop] at hres
  | succ gas ih =>
    intro lo po c labels offsets lc reads ptrs0 hres hok
    simp only [decodeNameLoop] at hres ⊢
    by_cases hptr : IS_LABEL_POINTER (p.byte lo) = true
    · simp only [hptr, if_true] at hres ⊢
      by_cases hbad : POINTER_OFFSET (p.byte lo) (p.byte (lo + 1)) < 12 ∨
          lo ≤ POINTER_OFFSET (p.byte lo) (p.byte (lo + 1))
      · simp [hbad] at hres
      · simp only [hbad, if_false] at hres ⊢
        refine ih _ _ _ _ _ _ _ _ hres ?_
        intro pr hpr
        rcases List.mem_append.mp hpr with h | h
        · exact hok pr h
        · simp only [List.mem_singleton] at h
          subst h
          simpa [badPtr] using hbad
    · simp only [Bool.not_eq_true] at hptr
      simp only [hptr, Bool.false_eq_true, if_false] at hres ⊢
      by_cases hcnt : 127 < lc + 1
      · simp [hcnt] at hres
      · simp only [hcnt, if_false] at hres ⊢
        by_cases hzero : p.byte lo = 0
        · simpa [hzero] using hok
        · simp only [hzero, if_false] at hres ⊢
          by_cases hbound : p.bytes < lo + (p.byte lo + 1) + 1 ∨
              256 < labels.length + (p.byte lo + 1) + 1
          · simp [hbound] at hres
          · simp only [hbound, if_false] at hres ⊢
            exact ih _ _ _ _ _ _ _ _ hres hok

theorem dns_decode_name_ptrs_ok (p : Packet) (off : Nat)
    (hres : (dns_decode_name p off).res ≠ none) :
    ∀ pr ∈ (dns_decode_name p off).ptrs, ¬ badPtr pr := by
  unfold dns_decode_name at hres ⊢
  exact decodeNameLoop_ptrs_ok p _ _ _ _ _ _ _ _ _ hres (by simp)

theorem dns_decode_queries_ptrs_ok (gfl ifl : Option FilterList) (p : Packet) :
    ∀ count off,
      (dns_decode_queries gfl ifl p count off).res ≠ none →
      ∀ pr ∈ (dns_decode_queries gfl ifl p count off).ptrs, ¬ badPtr pr := by
  intro count
  induction count with
  | zero => intro off hres; simp [dns_decode_queries]
  | succ count ih =>
    intro off hres
    simp only [dns_decode_queries] at hres ⊢
    cases hn : (dns_decode_name p off).res with
    | none => simp only [hn] at hres; simp at hres
    | some v =>
      obtain ⟨name, off1⟩ := v
      simp only [hn] at hres ⊢
      by_cases hb : p.bytes < off1 + 4
      · simp [hb] at hres
      · simp only [hb, if_false] at hres ⊢
        intro pr hpr
        simp only [List.mem_append] at hpr
        rcases hpr with h | h
        · exact dns_decode_name_ptrs_ok p off (by simp [hn]) pr h
        · refine ih _ ?_ pr h
          intro hrest
          simp [hrest] at hres


theorem ptrs_ok_nil : ∀ pr ∈ ([] : List (Nat × Nat)), ¬ badPtr pr := by simp

theorem ptrs_ok_append {A B : List (Nat × Nat)}
    (ha : ∀ pr ∈ A, ¬ badPtr pr) (hb : ∀ pr ∈ B, ¬ badPtr pr) :
    ∀ pr ∈ A ++ B, ¬ badPtr pr := by
  intro pr hpr
  rcases List.mem_append.mp hpr with h | h
  · exact ha pr h
  · exact hb pr h

theorem decodeRrStep_ptrs_ok (gfl ifl : Option FilterList) (p : Packet)
    (off : Nat) (hres : (decodeRrStep gfl ifl p off).res ≠ none) :
    ∀ pr ∈ (decodeRrStep gfl ifl p off).ptrs, ¬ badPtr pr := by
  unfold decodeRrStep at hres ⊢
  cases hn : (dns_decode_name p off).res with
  | none => simp only [hn] at hres; simp at hres
  | some v =>
    obtain ⟨name, off1⟩ := v
    simp only [hn] at hres ⊢
    have hgn := dns_decode_name_ptrs_ok p off (by simp [hn])
    by_cases hb : p.bytes < off1 + 10
    · simp [hb] at hres
    · simp only [hb, if_false] at hres ⊢
      by_cases hd : be16 p (off1 + 8) = 0 ∨ p.bytes < off1 + 10 + be16 p (off1 + 8)
      · simp [hd] at hres
      · simp only [hd, if_false] at hres ⊢
        by_cases hA : be16 p off1 = 33 ∨ be16 p off1 = 16 ∨ be16 p off1 = 13 ∨
            be16 p off1 = 64 ∨ be16 p off1 = 65
        · simp only [hA, if_true] at hres ⊢
          by_cases hal : (if rr_type_supported (be16 p off1) = true then
              allowed_inbound gfl ifl name else false) = true
          · simp only [hal, if_true] at hres ⊢
            by_cases h33 : be16 p off1 = 33
            · simp only [h33, if_true] at hres ⊢
              cases ht : (dns_decode_name p (off1 + 10 + 6)).res with
              | none => simp only [ht] at hres; simp at hres
              | some w =>
                obtain ⟨rn, tOff⟩ := w
                simp only [ht] at hres ⊢
                by_cases hteq : tOff = off1 + 10 + be16 p (off1 + 8)
                · simp only [hteq, if_true] at hres ⊢
                  simp only [NOut.ptrs, List.append_nil, List.nil_append]
                  exact ptrs_ok_append hgn
                    (dns_decode_name_ptrs_ok p (off1 + 10 + 6) (by simp [ht]))
                · simp [hteq] at hres
            · simp only [h33, if_false] at hres ⊢
              have h47 : ¬ be16 p off1 = 47 := by
                rcases hA with h | h | h | h | h <;> omega
              simp only [h47, if_false] at hres ⊢
              simpa only [NOut.ptrs, List.append_nil] using hgn
          · simp only [hal, if_false] at hres ⊢
            simp only [Bool.false_eq_true, if_false, NOut.ptrs, List.append_nil]
            exact hgn
        · simp only [hA, if_false] at hres ⊢
          by_cases hB : be16 p off1 = 12 ∨ be16 p off1 = 5 ∨ be16 p off1 = 39
          · simp only [hB, if_true] at hres ⊢
            cases ht : (dns_decode_name p (off1 + 10)).res with
            | none => simp only [ht] at hres; simp at hres
            | some w =>
              obtain ⟨rn, tOff⟩ := w
              simp only [ht] at hres ⊢
              by_cases hteq : tOff = off1 + 10 + be16 p (off1 + 8)
              · simp only [hteq, if_true] at hres ⊢
                have hrd := dns_decode_name_ptrs_ok p (off1 + 10) (by simp [ht])
                have h33 : ¬ be16 p off1 = 33 := by rcases hB with h | h | h <;> omega
                have h47 : ¬ be16 p off1 = 47 := by rcases hB with h | h | h <;> omega
                by_cases hal : (if rr_type_supported (be16 p off1) = true then
                    allowed_inbound gfl ifl rn else false) = true
                · simp only [hal, if_true, h33, h47, if_false] at hres ⊢
                  simp only [NOut.ptrs, List.append_nil]
                  exact ptrs_ok_append hgn hrd
                · simp only [hal, if_false] at hres ⊢
                  simp only [Bool.false_eq_true, if_false, NOut.ptrs,
                    List.append_nil]
                  exact ptrs_ok_append hgn hrd
              · simp [hteq] at hres
          · simp only [hB, if_false] at hres ⊢
            have h33 : ¬ be16 p off1 = 33 := fun h => hA (Or.inl h)
            by_cases hal : (if rr_type_supported (be16 p off1) = true then
                (true : Bool) else false) = true
            · simp only [hal, if_true, h33, if_false] at hres ⊢
              by_cases h47 : be16 p off1 = 47
              · simp only [h47, if_true] at hres ⊢
                cases ht : (dns_decode_name p (off1 + 10)).res with
                | none => simp only [ht] at hres; simp at hres
                | some w =>
                  obtain ⟨rn, tOff⟩ := w
                  simp only [ht] at hres ⊢
                  by_cases hteq : tOff ≤ off1 + 10 + be16 p (off1 + 8)
                  · simp only [hteq, if_true] at hres ⊢
                    simp only [NOut.ptrs, List.append_nil, List.nil_append]
                    exact ptrs_ok_append hgn
                      (dns_decode_name_ptrs_ok p (off1 + 10) (by simp [ht]))
                  · simp [hteq] at hres
              · simp only [h47, if_false] at hres ⊢
                simpa only [NOut.ptrs, List.append_nil] using hgn
            · simp only [hal, if_false] at hres ⊢
              simp only [Bool.false_eq_true, if_false, NOut.ptrs, List.append_nil]
              exact hgn

theorem dns_decode_rrs_ptrs_ok (gfl ifl : Option FilterList) (p : Packet) :
    ∀ count off,
      (dns_decode_rrs gfl ifl p count off).res ≠ none →
      ∀ pr ∈ (dns_decode_rrs gfl ifl p count off).ptrs, ¬ badPtr pr := by
  intro count
  induction count with
  | zero => intro off hres; simp [dns_decode_rrs]
  | succ count ih =>
    intro off hres
    simp only [dns_decode_rrs] at hres ⊢
    cases hs : (decodeRrStep gfl ifl p off).res with
    | none => simp only [hs] at hres; simp at hres
    | some v =>
      obtain ⟨kept, off1⟩ := v
      simp only [hs] at hres ⊢
      refine ptrs_ok_append (decodeRrStep_ptrs_ok gfl ifl p off (by simp [hs])) ?_
      refine ih _ ?_
      intro hrest
      simp [hrest] at hres

theorem dns_decode_packet_ptrs_ok (allocQ allocR : Nat)
    (gfl ifl : Option FilterList) (p : Packet)
    (hres : (dns_decode_packet allocQ allocR gfl ifl p).res ≠ none) :
    ∀ pr ∈ (dns_decode_packet allocQ allocR gfl ifl p).ptrs, ¬ badPtr pr := by
  unfold dns_decode_packet at hres ⊢
  cases hh : dns_decode_header allocQ allocR p with
  | none => simp only [hh] at hres; simp at hres
  | some h =>
    simp only [hh] at hres ⊢
    cases hq : (dns_decode_queries gfl ifl p h.qc 12).res with
    | none => simp only [hq] at hres; simp at hres
    | some v =>
      obtain ⟨qs, off1⟩ := v
      simp only [hq] at hres ⊢
      have hqok := dns_decode_queries_ptrs_ok gfl ifl p h.qc 12 (by simp [hq])
      cases h1 : (dns_decode_rrs gfl ifl p h.an off1).res with
      | none => simp only [h1] at hres; simp at hres
      | some v1 =>
        obtain ⟨ans, off2⟩ := v1
        simp only [h1] at hres ⊢
        have h1ok := dns_decode_rrs_ptrs_ok gfl ifl p h.an off1 (by simp [h1])
        cases h2 : (dns_decode_rrs gfl ifl p h.au off2).res with
        | none => simp only [h2] at hres; simp at hres
        | some v2 =>
          obtain ⟨auth, off3⟩ := v2
          simp only [h2] at hres ⊢
          have h2ok := dns_decode_rrs_ptrs_ok gfl ifl p h.au off2 (by simp [h2])
          cases h3 : (dns_decode_rrs gfl ifl p h.ad off3).res with
          | none => simp only [h3] at hres; simp at hres
          | some v3 =>
            obtain ⟨add, off4⟩ := v3
            simp only [h3] at hres ⊢
            have h3ok := dns_decode_rrs_ptrs_ok gfl ifl p h.ad off3 (by simp [h3])
            have hall :=
              ptrs_ok_append (ptrs_ok_append (ptrs_ok_append hqok h1ok) h2ok) h3ok
            intro pr hpr
            split at hpr
            · exact hall pr hpr
            · split at hpr
              · exact hall pr hpr
              · exact hall pr hpr

/-- C2: if a name being decoded anywhere in a packet contains a compression
pointer whose 14-bit target is below the 12-byte DNS header or at/after the
offset at which the pointer itself occurs, then the name decode fails and
`dns_decode_packet` returns 0 (models as `none`), dropping the whole
packet. -/
theorem C2_bad_pointer_drops_packet (allocQ allocR : Nat)
    (gfl ifl : Option FilterList) (p : Packet) (pos target : Nat)
    (hmem : (pos, target) ∈ (dns_decode_packet allocQ allocR gfl ifl p).ptrs)
    (hbad : target < 12 ∨ pos ≤ target) :
    (dns_decode_packet allocQ allocR gfl ifl p).res = none := by
  by_contra hres
  exact dns_decode_packet_ptrs_ok allocQ allocR gfl ifl p hres (pos, target) hmem hbad

/-- A packet whose single query name starts with a compression pointer whose
target offset is 5, inside the DNS header (the malformed-pointer scenario of
the spec). -/
def pktC2 : Packet := pktOf [0, 0, 0, 0, 0, 1, 0, 0, 0, 0, 0, 0, 0xC0, 5]

theorem C2_bad_pointer_drops_packet_witness :
    ((12, 5) ∈ (dns_decode_packet 25 50 none none pktC2).ptrs ∧
        ((5 : Nat) < 12 ∨ (12 : Nat) ≤ 5)) ∧
      (dns_decode_packet 25 50 none none pktC2).res = none :=
  ⟨⟨by decide, by decide⟩,
    C2_bad_pointer_drops_packet 25 50 none none pktC2 12 5 (by decide) (by decide)⟩

/-! ## Claim C9 -/

/-- A packet carrying one A answer (name `a`) and one MX (type 15) answer
(name `b`), with the warn flag clear. -/
def pktC9 : Packet := pktOf
  [0, 9, 0, 0, 0, 0, 0, 2, 0, 0, 0, 0,
   1, 97, 0, 0, 1, 0, 1, 0, 0, 0, 0, 0, 4, 10, 0, 0, 1,
   1, 98, 0, 0, 15, 0, 1, 0, 0, 0, 0, 0, 4, 0, 10, 1, 99]

/-- C9, failing input: the MX record is dropped while the A record survives —
that half of the claim holds — but the unsupported-type log notice is emitted
unconditionally: `dns_packet_error`/`logger` in the `dns_decode_rrs` default
case never consult `flag_warn` (the flag is parsed in `main` and never read),
so the model's `unsup` trace has no warn parameter at all and is nonempty
here. -/
theorem C9_unsupported_type_always_logged :
    (dns_decode_packet 25 50 none none pktC9).res =
        some ⟨[], [⟨15, 1, 0, ⟨3, 2, [0, 2], [1, 97, 0]⟩, emptyName⟩], [], []⟩ ∧
      (dns_decode_packet 25 50 none none pktC9).unsup = [15] := by decide

/-! ## Claim C6 -/

/-- A deny filter list for the label `_x`. -/
def flC6 : FilterList := ⟨FilterMode.DENY, [⟨3, [2, 95, 120]⟩]⟩

/-- The owner name `_x.local`. -/
def nameC6 : DnsName :=
  ⟨10, 3, [0, 3, 9], [2, 95, 120, 5, 108, 111, 99, 97, 108, 0]⟩

/-- The decoded SVCB (type 64) answer of `pktC6`. -/
def rrC6 : DnsRr := ⟨22, 64, 0, nameC6, emptyName⟩

/-- A packet carrying one SVCB (type 64) answer with owner `_x.local`. -/
def pktC6 : Packet := pktOf
  [0, 1, 0, 0, 0, 0, 0, 1, 0, 0, 0, 0,
   2, 95, 120, 5, 108, 111, 99, 97, 108, 0,
   0, 64, 0, 1, 0, 0, 0, 0, 0, 2, 0, 0]

/-- C6, failing input: for an SVCB (type 64) record the decoder's inbound
switch tests the owner name (here the deny list rejects it, so the whole
packet is dropped as everything was filtered), while the encoder's outbound
switch does not filter SVCB at all (the record is emitted and the emitted
answer count is 1).  The same mismatch exists for HTTPS (65) and for
SVCB/HTTPS queries; the `NB:` comments in the source demand that the two
switches match. -/
theorem C6_svcb_outbound_not_filtered :
    (dns_decode_packet 25 50 none (some flC6) pktC6).res = none ∧
      (dns_decode_packet 25 50 none none pktC6).res = some ⟨[], [rrC6], [], []⟩ ∧
      allowed_inbound none (some flC6) rrC6.name = false ∧
      dns_encode_rr_allowed (some flC6) rrC6 = true ∧
      (dns_encode_rrs pktC6 (some flC6) seedClist (fun _ => 0) 12 [rrC6]).2.2.2 = 1 := by
  decide

/-! ## Claim C4 -/

theorem dns_encode_queries_count (recv : Packet) (fl : Option FilterList) :
    ∀ qs cl buf off,
      (dns_encode_queries recv fl cl buf off qs).2.2.2 = emittedQueryCount fl qs := by
  intro qs
  induction qs with
  | nil => intro cl buf off; simp [dns_encode_queries, emittedQueryCount]
  | cons q rest ih =>
    intro cl buf off
    by_cases hq : dns_encode_query_allowed fl q = true
    · rcases henc : dns_encode_name cl buf off q.name with ⟨cl1, buf1, off1⟩
      rcases hrec : dns_encode_queries recv fl cl1
          (copyRecv buf1 off1 recv q.dataOff 4) (off1 + 4) rest with
        ⟨cl2, buf2, off2, c⟩
      have hc : c = emittedQueryCount fl rest := by
        have := ih cl1 (copyRecv buf1 off1 recv q.dataOff 4) (off1 + 4)
        rw [hrec] at this
        exact this
      simp only [dns_encode_queries, hq, if_true, henc, hrec, hc,
        emittedQueryCount]
      rw [List.countP_cons_of_pos _ _ hq]
    · have hstep : dns_encode_queries recv fl cl buf off (q :: rest)
          = dns_encode_queries recv fl cl buf off rest := by
        simp only [dns_encode_queries, hq, Bool.false_eq_true, if_false]
      rw [hstep, ih]
      simp only [emittedQueryCount]
      rw [List.countP_cons_of_neg _ _ hq]

theorem dns_encode_rrs_count (recv : Packet) (fl : Option FilterList) :
    ∀ rrs cl buf off,
      (dns_encode_rrs recv fl cl buf off rrs).2.2.2 = emittedRrCount fl rrs := by
  intro rrs
  induction rrs with
  | nil => intro cl buf off; simp [dns_encode_rrs, emittedRrCount]
  | cons rr rest ih =>
    intro cl buf off
    by_cases hr : dns_encode_rr_allowed fl rr = true
    · rcases hname : dns_encode_name cl buf off rr.name with ⟨cl1, buf1, off1⟩
      rcases hrd : (if rr.rtype = 12 ∨ rr.rtype = 5 ∨ rr.rtype = 39 then
            dns_encode_name cl1 (copyRecv buf1 off1 recv rr.dataOff 8)
              (off1 + 10) rr.rdataName
          else if rr.rtype = 33 then
            dns_encode_name cl1
              (copyRecv (copyRecv buf1 off1 recv rr.dataOff 8) (off1 + 10) recv
                (rr.dataOff + 10) rr.secondaryLen)
              (off1 + 10 + rr.secondaryLen) rr.rdataName
          else if rr.rtype = 47 then
            let z := dns_encode_name cl1 (copyRecv buf1 off1 recv rr.dataOff 8)
              (off1 + 10) rr.rdataName
            (z.1, copyRecv z.2.1 z.2.2 recv
              (rr.dataOff + 10 + (be16 recv (rr.dataOff + 8) - rr.secondaryLen))
              rr.secondaryLen, z.2.2 + rr.secondaryLen)
          else
            (cl1, copyRecv (copyRecv buf1 off1 recv rr.dataOff 8) (off1 + 10)
              recv (rr.dataOff + 10) (be16 recv (rr.dataOff + 8)),
              off1 + 10 + be16 recv (rr.dataOff + 8))) with ⟨cl2, buf2, off2⟩
      rcases hrec : dns_encode_rrs recv fl cl2
          (writeBe16 buf2 (off1 + 8) (off2 - (off1 + 10))) off2 rest with
        ⟨cl3, buf3, off3, c⟩
      have hc : c = emittedRrCount fl rest := by
        have := ih cl2 (writeBe16 buf2 (off1 + 8) (off2 - (off1 + 10))) off2
        rw [hrec] at this
        exact this
      simp only [dns_encode_rrs, hr, if_true, hname, hrd, hrec, hc,
        emittedRrCount]
      rw [List.countP_cons_of_pos _ _ hr]
    · have hstep : dns_encode_rrs recv fl cl buf off (rr :: rest)
          = dns_encode_rrs recv fl cl buf off rest := by
        simp only [dns_encode_rrs, hr, Bool.false_eq_true, if_false]
      rw [hstep, ih]
      simp only [emittedRrCount]
      rw [List.countP_cons_of_neg _ _ hr]

theorem copyRecv_four (buf : SendBuf) (off : Nat) (recv : Packet) (s : Nat) :
    copyRecv buf off recv s 4 =
      upd (upd (upd (upd buf off (recv.byte (s + 0))) (off + 1) (recv.byte (s + 1)))
        (off + 2) (recv.byte (s + 2))) (off + 3) (recv.byte (s + 3)) := rfl

/-- C4: whenever `dns_encode_packet` assembles an outbound packet (nonzero
return), the emitted header's transaction id (bytes 0–1) and flags (bytes
2–3) are byte-identical to the received packet's, and the four section count
fields hold the number of queries and of records per section actually
emitted (the records passing the outbound filter switch), in network byte
order (high byte first). -/
theorem C4_header_preserved (parse : Parse) (recv : Packet)
    (fl : Option FilterList) (buf0 : SendBuf) (buf : SendBuf) (n : Nat)
    (henc : dns_encode_packet parse recv fl buf0 = some (buf, n))
    (hq : emittedQueryCount fl parse.queries < 65536)
    (ha : emittedRrCount fl parse.ans < 65536)
    (hu : emittedRrCount fl parse.auth < 65536)
    (hd : emittedRrCount fl parse.add < 65536) :
    buf 0 = recv.byte 0 ∧ buf 1 = recv.byte 1 ∧
      buf 2 = recv.byte 2 ∧ buf 3 = recv.byte 3 ∧
      buf 4 = emittedQueryCount fl parse.queries / 256 ∧
      buf 5 = emittedQueryCount fl parse.queries % 256 ∧
      buf 6 = emittedRrCount fl parse.ans / 256 ∧
      buf 7 = emittedRrCount fl parse.ans % 256 ∧
      buf 8 = emittedRrCount fl parse.auth / 256 ∧
      buf 9 = emittedRrCount fl parse.auth % 256 ∧
      buf 10 = emittedRrCount fl parse.add / 256 ∧
      buf 11 = emittedRrCount fl parse.add % 256 := by
  unfold dns_encode_packet at henc
  simp only [dns_encode_queries_count, dns_encode_rrs_count] at henc
  split at henc
  · exact absurd henc (by simp)
  · rw [Option.some_inj, Prod.mk.injEq] at henc
    obtain ⟨hbuf, -⟩ := henc
    subst hbuf
    refine ⟨?_, ?_, ?_, ?_, ?_, ?_, ?_, ?_, ?_, ?_, ?_, ?_⟩ <;>
      simp [writeBe16, upd, copyRecv_four] <;> omega

/-- A one-query parse (owner `a`, type PTR) used as the C4 witness input. -/
def parseC4 : Parse := ⟨[⟨15, 12, ⟨3, 2, [0, 2], [1, 97, 0]⟩⟩], [], [], []⟩

/-- The packet `parseC4` was decoded from. -/
def pktC4 : Packet :=
  pktOf [0, 1, 2, 3, 0, 1, 0, 0, 0, 0, 0, 0, 1, 97, 0, 0, 12, 0, 1]

/-- The buffer `dns_encode_packet` produces for the C4 witness input. -/
def bufC4 : SendBuf :=
  ((dns_encode_packet parseC4 pktC4 none (fun _ => 0)).getD
    ((fun _ => 0), 0)).1

/-- The byte count `dns_encode_packet` produces for the C4 witness input. -/
def lenC4 : Nat :=
  ((dns_encode_packet parseC4 pktC4 none (fun _ => 0)).getD
    ((fun _ => 0), 0)).2

theorem C4_header_preserved_witness :
    (dns_encode_packet parseC4 pktC4 none (fun _ => 0) = some (bufC4, lenC4) ∧
        emittedQueryCount none parseC4.queries < 65536 ∧
        emittedRrCount none parseC4.ans < 65536 ∧
        emittedRrCount none parseC4.auth < 65536 ∧
        emittedRrCount none parseC4.add < 65536) ∧
      (bufC4 0 = pktC4.byte 0 ∧ bufC4 1 = pktC4.byte 1 ∧
        bufC4 2 = pktC4.byte 2 ∧ bufC4 3 = pktC4.byte 3 ∧
        bufC4 4 = emittedQueryCount none parseC4.queries / 256 ∧
        bufC4 5 = emittedQueryCount none parseC4.queries % 256 ∧
        bufC4 6 = emittedRrCount none parseC4.ans / 256 ∧
        bufC4 7 = emittedRrCount none parseC4.ans % 256 ∧
        bufC4 8 = emittedRrCount none parseC4.auth / 256 ∧
        bufC4 9 = emittedRrCount none parseC4.auth % 256 ∧
        bufC4 10 = emittedRrCount none parseC4.add / 256 ∧
        bufC4 11 = emittedRrCount none parseC4.add % 256) :=
  ⟨⟨rfl, by decide, by decide, by decide, by decide⟩,
    C4_header_preserved parseC4 pktC4 none (fun _ => 0) bufC4 lenC4 rfl
      (by decide) (by decide) (by decide) (by decide)⟩

/-! ## Claim C7 -/

theorem dns_encode_packet_none_of_empty (parse : Parse) (recv : Packet)
    (fl : Option FilterList) (buf0 : SendBuf)
    (hq : emittedQueryCount fl parse.queries = 0)
    (ha : emittedRrCount fl parse.ans = 0)
    (hu : emittedRrCount fl parse.auth = 0)
    (hd : emittedRrCount fl parse.add = 0) :
    dns_encode_packet parse recv fl buf0 = none := by
  unfold dns_encode_packet
  simp only [dns_encode_queries_count, dns_encode_rrs_count, hq, ha, hu, hd]
  simp

/-- C7: if, after outbound filtering with variant `f`, the emitted query,
answer, authority and additional counts are all zero, then `dns_encode_packet`
returns 0 (`none`) and the receive path sends no datagram to any peer whose
outbound filter is that variant. -/
theorem C7_empty_variant_suppressed (allocQ allocR : Nat)
    (gfl : Option FilterList) (iface : Iface) (recv : Packet) (parse : Parse)
    (f : FilterList) (sp : Parse) (staleBuf : SendBuf) (staleLen : Nat)
    (buf0 : SendBuf)
    (hdec : (dns_decode_packet allocQ allocR gfl iface.inboundFilter recv).res
      = some parse)
    (hq : emittedQueryCount (some f) parse.queries = 0)
    (ha : emittedRrCount (some f) parse.ans = 0)
    (hu : emittedRrCount (some f) parse.auth = 0)
    (hd : emittedRrCount (some f) parse.add = 0) :
    dns_encode_packet parse recv (some f) buf0 = none ∧
      ∀ ev ∈ receiveSends true allocQ allocR gfl iface recv sp staleBuf staleLen,
        (iface.peerList.getD ev.peer ⟨none⟩).outboundFilter ≠ some f := by
  refine ⟨dns_encode_packet_none_of_empty _ _ _ _ hq ha hu hd, ?_⟩
  intro ev hev
  unfold receiveSends at hev
  simp only [hdec, if_true] at hev
  rcases List.mem_append.mp hev with h | h
  · by_cases hnf : iface.peerNofilterCount ≠ 0
    · rw [if_pos hnf] at h
      unfold nofilterEvents at h
      rcases List.mem_filterMap.mp h with ⟨i, hi, hif⟩
      by_cases hout : (iface.peerList.getD i ⟨none⟩).outboundFilter = none
      · rw [if_pos hout] at hif
        obtain rfl := Option.some.inj hif
        show ¬ (iface.peerList.getD i ⟨none⟩).outboundFilter = some f
        rw [hout]
        simp
      · rw [if_neg hout] at hif
        exact absurd hif (by simp)
    · rw [if_neg hnf] at h
      exact absurd h (by simp)
  · by_cases hvf : iface.peerFilterList.length ≠ 0
    · rw [if_pos hvf] at h
      rcases List.mem_flatten.mp h with ⟨l, hl, hevl⟩
      rcases List.mem_map.mp hl with ⟨fl2, hfl2, rfl⟩
      cases henc : dns_encode_packet parse recv (some fl2) staleBuf with
      | none => rw [henc] at hevl; exact absurd hevl (by simp)
      | some v =>
        rw [henc] at hevl
        unfold variantEvents at hevl
        rcases List.mem_filterMap.mp hevl with ⟨i, hi, hif⟩
        by_cases hout : (iface.peerList.getD i ⟨none⟩).outboundFilter = some fl2
        · rw [if_pos hout] at hif
          obtain rfl := Option.some.inj hif
          show ¬ (iface.peerList.getD i ⟨none⟩).outboundFilter = some f
          intro hcontra
          rw [hout] at hcontra
          obtain rfl := Option.some.inj hcontra
          rw [dns_encode_packet_none_of_empty parse recv (some fl2) staleBuf
            hq ha hu hd] at henc
          exact Option.noConfusion henc
        · rw [if_neg hout] at hif
          exact absurd hif (by simp)
    · rw [if_neg hvf] at h
      exact absurd h (by simp)

/-- An allow filter list for the label `_zz` (matches nothing below). -/
def fC7 : FilterList := ⟨FilterMode.ALLOW, [⟨4, [3, 95, 122, 122]⟩]⟩

/-- The owner name `x`. -/
def nameC7 : DnsName := ⟨3, 2, [0, 2], [1, 120, 0]⟩

/-- The parse of `pktC7`: one TXT answer with owner `x`. -/
def parseC7 : Parse := ⟨[], [⟨15, 16, 0, nameC7, emptyName⟩], [], []⟩

/-- A packet with a single TXT answer whose owner matches no `fC7` entry. -/
def pktC7 : Packet := pktOf
  [0, 2, 0, 0, 0, 0, 0, 1, 0, 0, 0, 0,
   1, 120, 0, 0, 16, 0, 1, 0, 0, 0, 0, 0, 1, 97]

/-- An ingress interface with one peer whose outbound filter is `fC7`. -/
def ifaceC7 : Iface := ⟨none, [⟨some fC7⟩], 0, [fC7]⟩

theorem C7_empty_variant_suppressed_witness :
    ((dns_decode_packet 25 50 none ifaceC7.inboundFilter pktC7).res
          = some parseC7 ∧
        emittedQueryCount (some fC7) parseC7.queries = 0 ∧
        emittedRrCount (some fC7) parseC7.ans = 0 ∧
        emittedRrCount (some fC7) parseC7.auth = 0 ∧
        emittedRrCount (some fC7) parseC7.add = 0) ∧
      (dns_encode_packet parseC7 pktC7 (some fC7) (fun _ => 0) = none ∧
        ∀ ev ∈ receiveSends true 25 50 none ifaceC7 pktC7 parseC7
            (fun _ => 0) 0,
          (ifaceC7.peerList.getD ev.peer ⟨none⟩).outboundFilter ≠ some fC7) :=
  ⟨⟨by decide, by decide, by decide, by decide, by decide⟩,
    C7_empty_variant_suppressed 25 50 none ifaceC7 pktC7 parseC7 fC7 parseC7
      (fun _ => 0) 0 (fun _ => 0) (by decide) (by decide) (by decide)
      (by decide) (by decide)⟩

/-! ## Claim C8 -/

/-- A global deny filter list for the label `_q` (matches nothing below). -/
def gflC8 : Option FilterList := some ⟨FilterMode.DENY, [⟨3, [2, 95, 113]⟩]⟩

/-- The owner name `a.local`. -/
def nameC8 : DnsName :=
  ⟨9, 3, [0, 2, 8], [1, 97, 5, 108, 111, 99, 97, 108, 0]⟩

/-- The parse of `pktC8`: two A queries for `a.local`, nothing rejected. -/
def parseC8 : Parse := ⟨[⟨21, 1, nameC8⟩, ⟨34, 1, nameC8⟩], [], [], []⟩

/-- A packet with two identical A queries for `a.local` (both names written
uncompressed). -/
def pktC8 : Packet := pktOf
  [7, 7, 0, 0, 0, 2, 0, 0, 0, 0, 0, 0,
   1, 97, 5, 108, 111, 99, 97, 108, 0, 0, 1, 0, 1,
   1, 97, 5, 108, 111, 99, 97, 108, 0, 0, 1, 0, 1]

/-- An ingress interface with a single peer that has no outbound filter. -/
def ifaceC8 : Iface := ⟨none, [⟨none⟩], 1, []⟩

/-- The datagram the receive path actually dispatches for `pktC8`: the
re-encoded packet, whose second query name is now a compression pointer. -/
def payloadC8 : List Nat :=
  [7, 7, 0, 0, 0, 2, 0, 0, 0, 0, 0, 0,
   1, 97, 5, 108, 111, 99, 97, 108, 0, 0, 1, 0, 1,
   0xC0, 0x0C, 0, 1, 0, 1]

/-- C8, counterexample: a global inbound filter exists but rejects nothing
(every advertised record is kept: 2 of 2 queries, 0 RRs), yet the receive
path does not forward the received bytes verbatim to the no-outbound-filter
peer — it dispatches the re-encoded datagram `payloadC8`, which differs from
the received bytes (the code re-encodes whenever a global or ingress inbound
filter *exists*, not only when it rejected something). -/
theorem C8_counterexample_reencode_without_rejection :
    (dns_decode_packet 25 50 gflC8 ifaceC8.inboundFilter pktC8).res
        = some parseC8 ∧
      parseC8.queries.length = 2 ∧ be16 pktC8 4 = 2 ∧
      parseC8.ans = [] ∧ be16 pktC8 6 = 0 ∧
      parseC8.auth = [] ∧ be16 pktC8 8 = 0 ∧
      parseC8.add = [] ∧ be16 pktC8 10 = 0 ∧
      receiveSends true 25 50 gflC8 ifaceC8 pktC8 parseC8 (fun _ => 0) 0
        = [⟨0, payloadC8⟩] ∧
      payloadC8 ≠ pktC8.byteList := by decide

theorem dns_decode_packet_some_nonempty (allocQ allocR : Nat)
    (gfl ifl : Option FilterList) (p : Packet) (parse : Parse)
    (h : (dns_decode_packet allocQ allocR gfl ifl p).res = some parse) :
    ¬ (parse.queries = [] ∧ parse.ans = [] ∧ parse.auth = [] ∧ parse.add = []) := by
  unfold dns_decode_packet at h
  cases hh : dns_decode_header allocQ allocR p with
  | none => simp only [hh] at h; simp at h
  | some hd =>
    simp only [hh] at h
    cases hq : (dns_decode_queries gfl ifl p hd.qc 12).res with
    | none => simp only [hq] at h; simp at h
    | some v =>
      obtain ⟨qs, off1⟩ := v
      simp only [hq] at h
      cases h1 : (dns_decode_rrs gfl ifl p hd.an off1).res with
      | none => simp only [h1] at h; simp at h
      | some v1 =>
        obtain ⟨ans, off2⟩ := v1
        simp only [h1] at h
        cases h2 : (dns_decode_rrs gfl ifl p hd.au off2).res with
        | none => simp only [h2] at h; simp at h
        | some v2 =>
          obtain ⟨auth, off3⟩ := v2
          simp only [h2] at h
          cases h3 : (dns_decode_rrs gfl ifl p hd.ad off3).res with
          | none => simp only [h3] at h; simp at h
          | some v3 =>
            obtain ⟨add, off4⟩ := v3
            simp only [h3] at h
            by_cases hlen : off4 ≠ p.bytes
            · rw [if_pos hlen] at h; simp at h
            · rw [if_neg hlen] at h
              by_cases hempty : qs = [] ∧ ans = [] ∧ auth = [] ∧ add = []
              · rw [if_pos hempty] at h; simp at h
              · rw [if_neg hempty] at h
                replace h : some (⟨qs, ans, auth, add⟩ : Parse) = some parse := h
                obtain rfl := Option.some.inj h
                simpa using hempty

theorem dns_encode_query_allowed_none (q : DnsQuery) :
    dns_encode_query_allowed none q = true := by
  unfold dns_encode_query_allowed allowed_outbound
  split <;> rfl

theorem dns_encode_rr_allowed_none (rr : DnsRr) :
    dns_encode_rr_allowed none rr = true := by
  unfold dns_encode_rr_allowed allowed_outbound
  split
  · rfl
  · split <;> rfl

theorem emittedQueryCount_none (qs : List DnsQuery) :
    emittedQueryCount none qs = qs.length := by
  unfold emittedQueryCount
  rw [List.countP_eq_length]
  intro q _
  exact dns_encode_query_allowed_none q

theorem emittedRrCount_none (rrs : List DnsRr) :
    emittedRrCount none rrs = rrs.length := by
  unfold emittedRrCount
  rw [List.countP_eq_length]
  intro rr _
  exact dns_encode_rr_allowed_none rr

theorem dns_encode_packet_none_filter (parse : Parse) (recv : Packet)
    (buf0 : SendBuf)
    (hne : ¬ (parse.queries = [] ∧ parse.ans = [] ∧ parse.auth = [] ∧
      parse.add = [])) :
    ∃ buf n, dns_encode_packet parse recv none buf0 = some (buf, n) := by
  unfold dns_encode_packet
  simp only [dns_encode_queries_count, dns_encode_rrs_count,
    emittedQueryCount_none, emittedRrCount_none]
  rw [if_neg]
  · exact ⟨_, _, rfl⟩
  · rintro ⟨h1, h2, h3, h4⟩
    exact hne ⟨List.length_eq_zero.mp h1, List.length_eq_zero.mp h2,
      List.length_eq_zero.mp h3, List.length_eq_zero.mp h4⟩

/-- C8, amended: when the ingress interface has a peer without an outbound
filter (and filtering is enabled and the decode kept something), one common
payload is dispatched to every such peer; that payload is the original
received bytes exactly when *no* global filter and *no* ingress inbound
filter is configured, and otherwise — whether or not those filters rejected
anything — it is the re-encode with a null outbound filter. -/
theorem C8_verbatim_iff_no_inbound_filter_exists (allocQ allocR : Nat)
    (gfl : Option FilterList) (iface : Iface) (recv : Packet) (parse : Parse)
    (sp : Parse) (staleBuf : SendBuf) (staleLen : Nat)
    (hdec : (dns_decode_packet allocQ allocR gfl iface.inboundFilter recv).res
      = some parse)
    (hnf : iface.peerNofilterCount ≠ 0) :
    ∃ payload,
      (∀ i, i < iface.peerList.length →
        (iface.peerList.getD i ⟨none⟩).outboundFilter = none →
          (⟨i, payload⟩ : SendEvent) ∈
            receiveSends true allocQ allocR gfl iface recv sp staleBuf staleLen) ∧
      (∀ ev ∈ receiveSends true allocQ allocR gfl iface recv sp staleBuf staleLen,
        (iface.peerList.getD ev.peer ⟨none⟩).outboundFilter = none →
          ev.payload = payload) ∧
      ((gfl = none ∧ iface.inboundFilter = none) → payload = recv.byteList) ∧
      ((gfl ≠ none ∨ iface.inboundFilter ≠ none) →
        ∃ buf n, dns_encode_packet parse recv none staleBuf = some (buf, n) ∧
          payload = readBytes buf n) := by
  refine ⟨if (gfl.isSome || iface.inboundFilter.isSome) = true then
      (match dns_encode_packet parse recv none staleBuf with
       | some (buf, n) => readBytes buf n
       | none => readBytes staleBuf staleLen)
    else recv.byteList, ?_, ?_, ?_, ?_⟩
  · intro i hi houti
    unfold receiveSends
    simp only [hdec, if_true]
    apply List.mem_append_left
    rw [if_pos hnf]
    unfold nofilterEvents
    exact List.mem_filterMap.mpr
      ⟨i, List.mem_range.mpr hi, by rw [if_pos houti]⟩
  · intro ev hev hout0
    unfold receiveSends at hev
    simp only [hdec, if_true] at hev
    rcases List.mem_append.mp hev with h | h
    · rw [if_pos hnf] at h
      unfold nofilterEvents at h
      rcases List.mem_filterMap.mp h with ⟨i, hi, hif⟩
      by_cases houti : (iface.peerList.getD i ⟨none⟩).outboundFilter = none
      · rw [if_pos houti] at hif
        obtain rfl := Option.some.inj hif
        rfl
      · rw [if_neg houti] at hif
        exact absurd hif (by simp)
    · by_cases hvf : iface.peerFilterList.length ≠ 0
      · rw [if_pos hvf] at h
        rcases List.mem_flatten.mp h with ⟨l, hl, hevl⟩
        rcases List.mem_map.mp hl with ⟨fl2, hfl2, rfl⟩
        cases henc : dns_encode_packet parse recv (some fl2) staleBuf with
        | none => rw [henc] at hevl; exact absurd hevl (by simp)
        | some v =>
          rw [henc] at hevl
          unfold variantEvents at hevl
          rcases List.mem_filterMap.mp hevl with ⟨i, hi, hif⟩
          by_cases houti : (iface.peerList.getD i ⟨none⟩).outboundFilter = some fl2
          · rw [if_pos houti] at hif
            obtain rfl := Option.some.inj hif
            replace hout0 :
                (iface.peerList.getD i ⟨none⟩).outboundFilter = none := hout0
            rw [houti] at hout0
            exact absurd hout0 (by simp)
          · rw [if_neg houti] at hif
            exact absurd hif (by simp)
      · rw [if_neg hvf] at h
        exact absurd h (by simp)
  · rintro ⟨hg, hif⟩
    rw [if_neg]
    rw [hg, hif]
    simp
  · intro hsome
    have hb : (gfl.isSome || iface.inboundFilter.isSome) = true := by
      rcases hsome with h | h
      · simp [Option.isSome_iff_ne_none.mpr h]
      · simp [Option.isSome_iff_ne_none.mpr h]
    obtain ⟨buf, n, henc⟩ := dns_encode_packet_none_filter parse recv staleBuf
      (dns_decode_packet_some_nonempty allocQ allocR gfl iface.inboundFilter
        recv parse hdec)
    refine ⟨buf, n, henc, ?_⟩
    rw [if_pos hb, henc]

theorem C8_verbatim_iff_no_inbound_filter_exists_witness :
    ((dns_decode_packet 25 50 gflC8 ifaceC8.inboundFilter pktC8).res
          = some parseC8 ∧
        ifaceC8.peerNofilterCount ≠ 0) ∧
      (∃ payload,
        (∀ i, i < ifaceC8.peerList.length →
          (ifaceC8.peerList.getD i ⟨none⟩).outboundFilter = none →
            (⟨i, payload⟩ : SendEvent) ∈
              receiveSends true 25 50 gflC8 ifaceC8 pktC8 parseC8
                (fun _ => 0) 0) ∧
        (∀ ev ∈ receiveSends true 25 50 gflC8 ifaceC8 pktC8 parseC8
            (fun _ => 0) 0,
          (ifaceC8.peerList.getD ev.peer ⟨none⟩).outboundFilter = none →
            ev.payload = payload) ∧
        ((gflC8 = none ∧ ifaceC8.inboundFilter = none) →
          payload = pktC8.byteList) ∧
        ((gflC8 ≠ none ∨ ifaceC8.inboundFilter ≠ none) →
          ∃ buf n,
            dns_encode_packet parseC8 pktC8 none (fun _ => 0) = some (buf, n) ∧
              payload = readBytes buf n)) :=
  ⟨⟨by decide, by decide⟩,
    C8_verbatim_iff_no_inbound_filter_exists 25 50 gflC8 ifaceC8 pktC8 parseC8
      parseC8 (fun _ => 0) 0 (by decide) (by decide)⟩

/-! ## Claim C3: well-formedness of decoded names -/

/-- The invariants of a decoded (expanded) name: the stored length and count
match the byte and offset lists, the offsets walk the labels from position 0
to the terminating zero byte at position `length - 1`, every non-terminal
label has a nonzero non-pointer length byte, and the C limits (length ≤ 256,
count ≤ 127) hold. -/
def WfName (n : DnsName) : Prop :=
  n.length = n.labels.length ∧
  n.count = n.offset.length ∧
  1 ≤ n.count ∧ n.count ≤ 127 ∧ n.length ≤ 256 ∧
  n.offset.getD 0 0 = 0 ∧
  n.offset.getD (n.count - 1) 0 = n.length - 1 ∧
  n.labels.getD (n.length - 1) 0 = 0 ∧
  (∀ b ∈ n.labels, b < 256) ∧
  (∀ i, i + 1 < n.count →
    0 < n.labels.getD (n.offset.getD i 0) 0 ∧
    IS_LABEL_POINTER (n.labels.getD (n.offset.getD i 0) 0) = false ∧
    n.offset.getD (i + 1) 0 =
      n.offset.getD i 0 + n.labels.getD (n.offset.getD i 0) 0 + 1)

/-- The invariant `decodeNameLoop` maintains on its accumulated labels,
offsets and label count. -/
def PartialWf (labels offsets : List Nat) (lc : Nat) : Prop :=
  offsets.length = lc ∧
  labels.length ≤ 255 ∧
  (∀ b ∈ labels, b < 256) ∧
  (lc = 0 → labels = []) ∧
  (0 < lc → offsets.getD 0 0 = 0) ∧
  (∀ i, i < lc → offsets.getD i 0 < labels.length) ∧
  (∀ i, i < lc →
    0 < labels.getD (offsets.getD i 0) 0 ∧
    IS_LABEL_POINTER (labels.getD (offsets.getD i 0) 0) = false ∧
    (if i + 1 < lc then offsets.getD (i + 1) 0 else labels.length) =
      offsets.getD i 0 + labels.getD (offsets.getD i 0) 0 + 1)

theorem partialWf_nil : PartialWf [] [] 0 := by
  refine ⟨rfl, by simp, by simp, fun _ => rfl, by omega, fun i hi => by omega,
    fun i hi => by omega⟩

theorem getD_append_self (l : List Nat) (x d : Nat) :
    (l ++ [x]).getD l.length d = x := by
  rw [List.getD_append_right _ _ _ _ (le_refl _)]
  simp

theorem partialWf_terminate (labels offsets : List Nat) (lc : Nat)
    (hp : PartialWf labels offsets lc) (hcnt : lc + 1 ≤ 127) :
    WfName ⟨(labels ++ [0]).length, lc + 1, offsets ++ [labels.length],
      labels ++ [0]⟩ := by
  obtain ⟨hlen, hmax, hbytes, hnil, h0, hofflt, hchain⟩ := hp
  have hlbl : ∀ i, i < lc → (labels ++ [0]).getD (offsets.getD i 0) 0 =
      labels.getD (offsets.getD i 0) 0 := by
    intro i hi
    exact List.getD_append _ _ _ _ (hofflt i hi)
  have hoff : ∀ i, i < lc → (offsets ++ [labels.length]).getD i 0 =
      offsets.getD i 0 := by
    intro i hi
    exact List.getD_append _ _ _ _ (by omega)
  unfold WfName
  dsimp only
  refine ⟨rfl, by simp [hlen], by omega, hcnt, ?_, ?_, ?_, ?_, ?_, ?_⟩
  · -- length bound
    rw [List.length_append]
    simp
    omega
  · -- first offset is zero
    rcases Nat.eq_zero_or_pos lc with h | h
    · subst h
      have heq : offsets = [] := List.length_eq_zero.mp hlen
      subst heq
      simp [hnil rfl]
    · rw [hoff 0 h]
      exact h0 h
  · -- last offset points at the terminator
    have h1 : lc + 1 - 1 = lc := by omega
    rw [h1, ← hlen, getD_append_self]
    simp
  · -- the terminator byte is zero
    have h1 : (labels ++ [0]).length - 1 = labels.length := by simp
    rw [h1, getD_append_self]
  · -- byte bounds
    intro b hb
    rcases List.mem_append.mp hb with h | h
    · exact hbytes b h
    · simp only [List.mem_singleton] at h
      omega
  · -- the label chain
    intro i hi
    have hilt : i < lc := by omega
    obtain ⟨hpos, hptr, hstep⟩ := hchain i hilt
    rw [hoff i hilt, hlbl i hilt]
    refine ⟨hpos, hptr, ?_⟩
    by_cases hi1 : i + 1 < lc
    · rw [hoff (i + 1) hi1]
      rw [if_pos hi1] at hstep
      exact hstep
    · have hieq : i + 1 = lc := by omega
      rw [if_neg hi1] at hstep
      subst hieq
      rw [← hlen, getD_append_self]
      exact hstep

theorem partialWf_extend (labels offsets : List Nat) (lc : Nat)
    (chunk : List Nat) (hp : PartialWf labels offsets lc)
    (hhead : 0 < chunk.getD 0 0)
    (hheadp : IS_LABEL_POINTER (chunk.getD 0 0) = false)
    (hchunklen : chunk.length = chunk.getD 0 0 + 1)
    (hcbytes : ∀ b ∈ chunk, b < 256)
    (htot : labels.length + chunk.length ≤ 255) :
    PartialWf (labels ++ chunk) (offsets ++ [labels.length]) (lc + 1) := by
  obtain ⟨hlen, hmax, hbytes, hnil, h0, hofflt, hchain⟩ := hp
  have hchunkpos : 0 < chunk.length := by rw [hchunklen]; omega
  have hoff : ∀ i, i < lc → (offsets ++ [labels.length]).getD i 0 =
      offsets.getD i 0 := by
    intro i hi
    exact List.getD_append _ _ _ _ (by omega)
  have hoffl : (offsets ++ [labels.length]).getD lc 0 = labels.length := by
    rw [← hlen]
    exact getD_append_self _ _ _
  have hlbl : ∀ j, j < labels.length →
      (labels ++ chunk).getD j 0 = labels.getD j 0 := by
    intro j hj
    exact List.getD_append _ _ _ _ hj
  have hlbll : (labels ++ chunk).getD labels.length 0 = chunk.getD 0 0 := by
    rw [List.getD_append_right _ _ _ _ (le_refl _)]
    simp [List.getD]
  refine ⟨by simp [hlen], ?_, ?_, by omega, ?_, ?_, ?_⟩
  · rw [List.length_append]
    omega
  · intro b hb
    rcases List.mem_append.mp hb with h | h
    · exact hbytes b h
    · exact hcbytes b h
  · intro hpos
    rcases Nat.eq_zero_or_pos lc with h | h
    · subst h
      have heq : offsets = [] := List.length_eq_zero.mp hlen
      subst heq
      have heq2 : labels = [] := hnil rfl
      subst heq2
      simp
    · rw [hoff 0 h]
      exact h0 h
  · intro i hi
    rcases Nat.lt_or_ge i lc with h | h
    · rw [hoff i h, List.length_append]
      have := hofflt i h
      omega
    · have heq : i = lc := by omega
      subst heq
      rw [hoffl, List.length_append]
      omega
  · intro i hi
    rcases Nat.lt_or_ge i lc with h | h
    · obtain ⟨hpos, hptr, hstep⟩ := hchain i h
      rw [hoff i h, hlbl _ (hofflt i h)]
      refine ⟨hpos, hptr, ?_⟩
      by_cases hi1 : i + 1 < lc
      · rw [if_pos (by omega), hoff (i + 1) hi1]
        rw [if_pos hi1] at hstep
        exact hstep
      · have hieq : i + 1 = lc := by omega
        rw [if_pos (by omega), hieq, hoffl]
        rw [if_neg hi1] at hstep
        exact hstep
    · have heq : i = lc := by omega
      subst heq
      rw [hoffl, hlbll]
      refine ⟨hhead, hheadp, ?_⟩
      rw [if_neg (by omega), List.length_append, hchunklen]
      omega

theorem range_map_getD_zero (f : Nat → Nat) (c : Nat) (hc : 0 < c) :
    ((List.range c).map f).getD 0 0 = f 0 := by
  cases c with
  | zero => omega
  | succ c => simp [List.range_succ_eq_map]

theorem decodeNameLoop_wf (p : Packet) :
    ∀ gas lo po c labels offsets lc reads ptrs n nx,
      PartialWf labels offsets lc →
      (decodeNameLoop p gas lo po c labels offsets lc reads ptrs).res
        = some (n, nx) →
      WfName n ∧ 1 ≤ n.length := by
  intro gas
  induction gas with
  | zero =>
    intro lo po c labels offsets lc reads ptrs n nx hp h
    simp [decodeNameLoop] at h
  | succ gas ih =>
    intro lo po c labels offsets lc reads ptrs n nx hp h
    simp only [decodeNameLoop] at h
    by_cases hptr : IS_LABEL_POINTER (p.byte lo) = true
    · simp only [hptr, if_true] at h
      by_cases hbad : POINTER_OFFSET (p.byte lo) (p.byte (lo + 1)) < 12 ∨
          lo ≤ POINTER_OFFSET (p.byte lo) (p.byte (lo + 1))
      · simp [hbad] at h
      · simp only [hbad, if_false] at h
        exact ih _ _ _ _ _ _ _ _ _ _ hp h
    · simp only [Bool.not_eq_true] at hptr
      simp only [hptr, Bool.false_eq_true, if_false] at h
      by_cases hcnt : 127 < lc + 1
      · simp [hcnt] at h
      · simp only [hcnt, if_false] at h
        by_cases hzero : p.byte lo = 0
        · rw [if_pos hzero] at h
          simp only [NOut.res, Option.some_inj, Prod.mk.injEq] at h
          obtain ⟨h1, -⟩ := h
          subst h1
          exact ⟨partialWf_terminate labels offsets lc hp (by omega), by simp⟩
        · rw [if_neg hzero] at h
          by_cases hbound : p.bytes < lo + (p.byte lo + 1) + 1 ∨
              256 < labels.length + (p.byte lo + 1) + 1
          · simp [hbound] at h
          · simp only [hbound, if_false] at h
            refine ih _ _ _ _ _ _ _ _ _ _ ?_ h
            have hc0 : ((List.range (p.byte lo + 1)).map
                (fun j => p.byte (lo + j))).getD 0 0 = p.byte lo := by
              rw [range_map_getD_zero _ _ (by omega), Nat.add_zero]
            refine partialWf_extend labels offsets lc _ hp ?_ ?_ ?_ ?_ ?_
            · rw [hc0]; omega
            · rw [hc0]; exact hptr
            · rw [hc0]; simp
            · intro b hb
              rcases List.mem_map.mp hb with ⟨j, hj, rfl⟩
              exact Nat.mod_lt _ (by omega)
            · simp
              omega

theorem dns_decode_name_wf (p : Packet) (off : Nat) (n : DnsName) (nx : Nat)
    (h : (dns_decode_name p off).res = some (n, nx)) :
    WfName n ∧ 1 ≤ n.length :=
  decodeNameLoop_wf p (off + 32769) off off false [] [] 0 [] [] n nx
    partialWf_nil h

theorem writeList_append (A B : List Nat) :
    ∀ buf off, writeList buf off (A ++ B)
      = writeList (writeList buf off A) (off + A.length) B := by
  induction A with
  | nil =>
    intro buf off
    show writeList buf off B = writeList buf (off + 0) B
    rw [Nat.add_zero]
  | cons b rest ih =>
    intro buf off
    show writeList (upd buf off b) (off + 1) (rest ++ B)
      = writeList (writeList (upd buf off b) (off + 1) rest)
          (off + (b :: rest).length) B
    rw [ih]
    have h : off + 1 + rest.length = off + (b :: rest).length := by
      show off + 1 + rest.length = off + (rest.length + 1)
      omega
    rw [h]

theorem writeList_lower (L : List Nat) :
    ∀ buf off i, i < off → writeList buf off L i = buf i := by
  induction L with
  | nil =>
    intro buf off i h
    rfl
  | cons b rest ih =>
    intro buf off i h
    simp only [writeList]
    rw [ih _ _ _ (by omega)]
    simp only [upd]
    rw [if_neg (by omega)]

theorem writeList_getD (L : List Nat) :
    ∀ buf off j, j < L.length → writeList buf off L (off + j) = L.getD j 0 := by
  induction L with
  | nil =>
    intro buf off j h
    simp at h
  | cons b rest ih =>
    intro buf off j h
    match j with
    | 0 =>
      simp only [writeList, Nat.add_zero]
      rw [writeList_lower rest _ _ _ (by omega)]
      simp [upd]
    | j + 1 =>
      simp only [writeList]
      have h2 : off + (j + 1) = (off + 1) + j := by omega
      rw [h2, ih _ _ _ (by simp at h; omega)]
      simp

theorem take_succ_getD (l : List Nat) (k : Nat) (h : k < l.length) :
    l.take (k + 1) = l.take k ++ [l.getD k 0] := by
  rw [List.take_succ, List.getElem?_eq_getElem h,
    List.getD_eq_getElem?_getD, List.getElem?_eq_getElem h]
  rfl

theorem take_range_map (l : List Nat) (a : Nat) :
    ∀ c, a + c ≤ l.length →
      l.take a ++ (List.range c).map (fun j => l.getD (a + j) 0)
        = l.take (a + c) := by
  intro c
  induction c with
  | zero =>
    intro h
    simp
  | succ c ih =>
    intro h
    rw [List.range_succ, List.map_append, ← List.append_assoc, ih (by omega)]
    simp only [List.map_cons, List.map_nil]
    rw [← take_succ_getD l (a + c) (by omega)]
    rfl

theorem take_pred_append (l : List Nat) (h1 : 1 ≤ l.length)
    (h2 : l.getD (l.length - 1) 0 = 0) :
    l.take (l.length - 1) ++ [0] = l := by
  rw [← h2, ← take_succ_getD l (l.length - 1) (by omega)]
  have h3 : l.length - 1 + 1 = l.length := by omega
  rw [h3, List.take_length]

theorem headD_drop (l : List Nat) (k : Nat) (h : k < l.length) :
    (l.drop k).headD 0 = l.getD k 0 := by
  rw [List.drop_eq_getElem_cons h]
  simp [List.getElem?_eq_getElem h]

theorem getD_set_ne (l : List CEntry) (i j : Nat) (v : CEntry) (h : i ≠ j) :
    (l.set i v).getD j zeroEntry = l.getD j zeroEntry := by
  simp [List.getElem?_set_ne h]

theorem getD_mem_or (l : List CEntry) (i : Nat) :
    l.getD i zeroEntry ∈ l ∨ l.getD i zeroEntry = zeroEntry := by
  rcases Nat.lt_or_ge i l.length with h | h
  · left
    rw [List.getD_eq_getElem?_getD, List.getElem?_eq_getElem h]
    exact List.getElem_mem h
  · right
    rw [List.getD_eq_getElem?_getD, List.getElem?_eq_none h]
    rfl

theorem wf_offset_mono (n : DnsName) (hw : WfName n) :
    ∀ d j, j + d < n.count →
      n.offset.getD j 0 + d ≤ n.offset.getD (j + d) 0 := by
  obtain ⟨-, -, -, -, -, -, -, -, -, hchain⟩ := hw
  intro d
  induction d with
  | zero =>
    intro j h
    show n.offset.getD j 0 + 0 ≤ n.offset.getD j 0
    omega
  | succ d ih =>
    intro j h
    have h1 := ih j (by omega)
    obtain ⟨hpos, -, hstep⟩ := hchain (j + d) (by omega)
    show n.offset.getD j 0 + (d + 1) ≤ n.offset.getD (j + d + 1) 0
    omega

theorem wf_offset_le (n : DnsName) (hw : WfName n) (j : Nat) (h : j < n.count) :
    n.offset.getD j 0 + (n.count - 1 - j) ≤ n.length - 1 := by
  have hlast : n.offset.getD (n.count - 1) 0 = n.length - 1 := by
    obtain ⟨-, -, -, -, -, -, hlast, -⟩ := hw
    exact hlast
  have hm := wf_offset_mono n hw (n.count - 1 - j) j (by omega)
  have heq : j + (n.count - 1 - j) = n.count - 1 := by omega
  rw [heq] at hm
  omega

theorem decode_uncompressed_loop (p : Packet) (off : Nat) (n : DnsName)
    (hw : WfName n) (hlp : 1 ≤ n.length)
    (hread : ∀ j, j < n.length → p.byte (off + j) = n.labels.getD j 0)
    (hbytes : off + n.length ≤ p.bytes) :
    ∀ m, ∀ gas k po reads ptrs, k + m + 1 = n.count → m + 1 ≤ gas →
      (decodeNameLoop p gas (off + n.offset.getD k 0) po false
          (n.labels.take (n.offset.getD k 0)) (n.offset.take k) k reads
          ptrs).res
        = some (n, po + (n.length - n.offset.getD k 0)) := by
  have hlen := hw.1
  have hcnteq := hw.2.1
  have hc127 := hw.2.2.2.1
  have hlen256 := hw.2.2.2.2.1
  have hlast := hw.2.2.2.2.2.2.1
  have hterm := hw.2.2.2.2.2.2.2.1
  have hchain := hw.2.2.2.2.2.2.2.2.2
  intro m
  induction m with
  | zero =>
    intro gas k po reads ptrs hk hgas
    have hkeq : k = n.count - 1 := by omega
    have hlastk : n.offset.getD k 0 = n.length - 1 := by rw [hkeq]; exact hlast
    have hklt : k < n.offset.length := by omega
    cases gas with
    | zero => omega
    | succ g =>
    simp only [decodeNameLoop, Bool.false_eq_true, if_false]
    rw [hlastk]
    have hbl : p.byte (off + (n.length - 1)) = 0 := by
      rw [hread (n.length - 1) (by omega)]
      exact hterm
    rw [hbl]
    rw [if_neg (by decide : ¬ IS_LABEL_POINTER 0 = true)]
    rw [if_neg (show ¬ 127 < k + 1 by omega)]
    rw [if_pos rfl]
    simp only [NOut.res]
    have htake : n.labels.take (n.length - 1) ++ [0] = n.labels := by
      rw [hlen]
      refine take_pred_append n.labels (by omega) ?_
      rw [← hlen]
      exact hterm
    have hminl : (n.labels.take (n.length - 1)).length = n.length - 1 := by
      rw [List.length_take, ← hlen, Nat.min_eq_left (by omega)]
    rw [htake, hminl]
    have hoffs : n.offset.take k ++ [n.length - 1] = n.offset := by
      rw [← hlastk, ← take_succ_getD n.offset k hklt,
        show k + 1 = n.count from by omega, hcnteq, List.take_length]
    rw [hoffs, ← hlen]
    have hpo : po + 1 = po + (n.length - (n.length - 1)) := by omega
    rw [← hpo, show k + 1 = n.count from by omega]
  | succ m ih =>
    intro gas k po reads ptrs hk hgas
    cases gas with
    | zero => omega
    | succ g =>
    have hklt : k < n.offset.length := by omega
    have hk1lt : k + 1 < n.count := by omega
    obtain ⟨hLpos, hLptr, hstep⟩ := hchain k hk1lt
    have hoklen : n.offset.getD k 0 ≤ n.length - 1 := by
      have := wf_offset_le n hw k (by omega)
      omega
    have hok1len : n.offset.getD (k + 1) 0 ≤ n.length - 1 := by
      have := wf_offset_le n hw (k + 1) (by omega)
      omega
    simp only [decodeNameLoop, Bool.false_eq_true, if_false]
    rw [hread (n.offset.getD k 0) (by omega)]
    rw [if_neg (show ¬ IS_LABEL_POINTER (n.labels.getD (n.offset.getD k 0) 0)
        = true by rw [hLptr]; exact Bool.false_ne_true)]
    rw [if_neg (show ¬ 127 < k + 1 by omega)]
    rw [if_neg (show ¬ n.labels.getD (n.offset.getD k 0) 0 = 0 by omega)]
    have hminlen : (n.labels.take (n.offset.getD k 0)).length
        = n.offset.getD k 0 := by
      rw [List.length_take, ← hlen, Nat.min_eq_left (by omega)]
    have hnb : ¬ (p.bytes < off + n.offset.getD k 0 +
          (n.labels.getD (n.offset.getD k 0) 0 + 1) + 1 ∨
        256 < (n.labels.take (n.offset.getD k 0)).length +
          (n.labels.getD (n.offset.getD k 0) 0 + 1) + 1) := by
      rw [hminlen]
      omega
    rw [if_neg hnb]
    have hchunk : (List.range (n.labels.getD (n.offset.getD k 0) 0 + 1)).map
          (fun j => p.byte (off + n.offset.getD k 0 + j))
        = (List.range (n.labels.getD (n.offset.getD k 0) 0 + 1)).map
          (fun j => n.labels.getD (n.offset.getD k 0 + j) 0) := by
      apply List.map_congr_left
      intro j hj
      rw [List.mem_range] at hj
      rw [Nat.add_assoc]
      exact hread _ (by omega)
    rw [hchunk, take_range_map n.labels (n.offset.getD k 0) _ (by omega),
      show n.offset.getD k 0 + (n.labels.getD (n.offset.getD k 0) 0 + 1)
        = n.offset.getD (k + 1) 0 from by omega,
      hminlen, ← take_succ_getD n.offset k hklt,
      show off + n.offset.getD k 0 + (n.labels.getD (n.offset.getD k 0) 0 + 1)
        = off + n.offset.getD (k + 1) 0 from by omega]
    rw [ih g (k + 1) (po + (n.labels.getD (n.offset.getD k 0) 0 + 1)) _ _
      (by omega) (by omega)]
    have hfin : po + (n.labels.getD (n.offset.getD k 0) 0 + 1) +
          (n.length - n.offset.getD (k + 1) 0)
        = po + (n.length - n.offset.getD k 0) := by omega
    rw [hfin]

theorem dns_decode_uncompressed (p : Packet) (off : Nat) (n : DnsName)
    (hw : WfName n) (hlp : 1 ≤ n.length)
    (hread : ∀ j, j < n.length → p.byte (off + j) = n.labels.getD j 0)
    (hbytes : off + n.length ≤ p.bytes) :
    (dns_decode_name p off).res = some (n, off + n.length) := by
  have h0 : n.offset.getD 0 0 = 0 := hw.2.2.2.2.2.1
  have hc1 : 1 ≤ n.count := hw.2.2.1
  have hc127 : n.count ≤ 127 := hw.2.2.2.1
  have h := decode_uncompressed_loop p off n hw hlp hread hbytes (n.count - 1)
    (off + 32769) 0 off [] [] (by omega) (by omega)
  rw [h0] at h
  exact h

/-- Every entry of the compression dictionary still has a zero (unemitted)
back-pointer — the state right after `clist_reset`. -/
def clPtrAllZero (cl : List CEntry) : Prop := ∀ e ∈ cl, e.pointer = 0

/-- The structural invariant of the compression dictionary: it is nonempty,
child counts never exceed the allocation, and every entry with an assigned
child range has that range strictly after itself and inside the list. -/
def clInv (cl : List CEntry) : Prop :=
  1 ≤ cl.length ∧
  ∀ i, i < cl.length →
    (cl.getD i zeroEntry).childUsed ≤ (cl.getD i zeroEntry).childAllocated ∧
    (((cl.getD i zeroEntry).childAllocated ≠ 0 ∨
        (cl.getD i zeroEntry).childUsed ≠ 0) →
      i < (cl.getD i zeroEntry).childIndex ∧
      (cl.getD i zeroEntry).childIndex
        + (cl.getD i zeroEntry).childAllocated ≤ cl.length)

theorem getD_mem (l : List CEntry) (i : Nat) (h : i < l.length) :
    l.getD i zeroEntry ∈ l := by
  rw [List.getD_eq_getElem?_getD, List.getElem?_eq_getElem h]
  exact List.getElem_mem h

theorem getD_drop (l : List CEntry) :
    ∀ n i, (l.drop n).getD i zeroEntry = l.getD (n + i) zeroEntry := by
  induction l with
  | nil =>
    intro n i
    simp
  | cons a t ih =>
    intro n i
    cases n with
    | zero => rw [List.drop_zero, Nat.zero_add]
    | succ m =>
      show (t.drop m).getD i zeroEntry = (a :: t).getD (m + 1 + i) zeroEntry
      rw [ih m i, show m + 1 + i = (m + i) + 1 from by omega]
      rfl

theorem getD_take_lt (l : List CEntry) (n i : Nat) (h : i < n) :
    (l.take n).getD i zeroEntry = l.getD i zeroEntry := by
  simp [List.getElem?_take_of_lt h]

theorem getD_map_bump (f : CEntry → CEntry) (hf : f zeroEntry = zeroEntry)
    (l : List CEntry) (i : Nat) :
    (l.map f).getD i zeroEntry = f (l.getD i zeroEntry) := by
  rcases Nat.lt_or_ge i l.length with h | h
  · simp [List.getElem?_eq_getElem h]
  · rw [List.getD_eq_getElem?_getD,
      List.getElem?_eq_none (by simpa using h),
      List.getD_eq_getElem?_getD, List.getElem?_eq_none h]
    exact hf.symm

theorem getD_replicate_zero (n i : Nat) :
    (List.replicate n zeroEntry).getD i zeroEntry = zeroEntry := by
  rw [List.getD_eq_getElem?_getD, List.getElem?_replicate]
  split <;> rfl

theorem bump_zero (index count : Nat) (h : 1 ≤ index) :
    (if index ≤ zeroEntry.childIndex then
      { zeroEntry with childIndex := zeroEntry.childIndex + count }
    else zeroEntry) = zeroEntry := by
  rw [if_neg]
  show ¬ index ≤ 0
  omega

theorem clist_open_len (cl : List CEntry) (index count : Nat) :
    (clist_open cl index count).1.length = cl.length + count := by
  unfold clist_open
  by_cases h : index < cl.length
  · rw [if_pos h]
    simp only
    rw [List.length_append, List.length_append, List.length_take,
      List.length_drop, List.length_map, List.length_replicate]
    omega
  · rw [if_neg h]
    simp only
    rw [List.length_append, List.length_replicate]

theorem clist_open_idx (cl : List CEntry) (index count : Nat) :
    (clist_open cl index count).2 = index := by
  unfold clist_open
  by_cases h : index < cl.length
  · rw [if_pos h]
  · rw [if_neg h]

theorem clist_open_getD_low (cl : List CEntry) (index count : Nat)
    (hidx : 1 ≤ index) (i : Nat) (hi : i < index) (hil : i < cl.length) :
    (clist_open cl index count).1.getD i zeroEntry
      = if index ≤ (cl.getD i zeroEntry).childIndex ∧ index < cl.length then
          { cl.getD i zeroEntry with
            childIndex := (cl.getD i zeroEntry).childIndex + count }
        else cl.getD i zeroEntry := by
  unfold clist_open
  by_cases h : index < cl.length
  · rw [if_pos h]
    simp only
    rw [List.getD_append _ _ _ _ (by
      rw [List.length_append, List.length_take, List.length_map,
        List.length_replicate]
      omega)]
    rw [List.getD_append _ _ _ _ (by
      rw [List.length_take, List.length_map]
      omega)]
    rw [getD_take_lt _ _ _ hi,
      getD_map_bump (fun e => if index ≤ e.childIndex then
          { e with childIndex := e.childIndex + count } else e)
        (bump_zero index count hidx) cl i]
    by_cases hb : index ≤ (cl.getD i zeroEntry).childIndex
    · rw [if_pos hb, if_pos ⟨hb, h⟩]
    · rw [if_neg hb, if_neg (fun hc => hb hc.1)]
  · rw [if_neg h]
    simp only
    rw [List.getD_append _ _ _ _ hil, if_neg (fun hc => h hc.2)]

theorem clist_open_getD_mid (cl : List CEntry) (index count : Nat)
    (hidx : index ≤ cl.length) (i : Nat) (h1 : index ≤ i)
    (h2 : i < index + count) :
    (clist_open cl index count).1.getD i zeroEntry = zeroEntry := by
  unfold clist_open
  by_cases h : index < cl.length
  · rw [if_pos h]
    simp only
    rw [List.getD_append _ _ _ _ (by
      rw [List.length_append, List.length_take, List.length_map,
        List.length_replicate]
      omega)]
    rw [List.getD_append_right _ _ _ _ (by
      rw [List.length_take, List.length_map]
      omega)]
    rw [List.length_take, List.length_map]
    exact getD_replicate_zero _ _
  · rw [if_neg h]
    simp only
    rw [List.getD_append_right _ _ _ _ (by omega)]
    exact getD_replicate_zero _ _

theorem clist_open_getD_high (cl : List CEntry) (index count : Nat)
    (hidx : 1 ≤ index) (i : Nat) (h1 : index + count ≤ i)
    (h2 : i - count < cl.length) :
    (clist_open cl index count).1.getD i zeroEntry
      = if index ≤ (cl.getD (i - count) zeroEntry).childIndex then
          { cl.getD (i - count) zeroEntry with
            childIndex := (cl.getD (i - count) zeroEntry).childIndex + count }
        else cl.getD (i - count) zeroEntry := by
  unfold clist_open
  by_cases h : index < cl.length
  · rw [if_pos h]
    simp only
    rw [List.getD_append_right _ _ _ _ (by
      rw [List.length_append, List.length_take, List.length_map,
        List.length_replicate]
      omega)]
    rw [List.length_append, List.length_take, List.length_map,
      List.length_replicate]
    rw [getD_drop,
      getD_map_bump (fun e => if index ≤ e.childIndex then
          { e with childIndex := e.childIndex + count } else e)
        (bump_zero index count hidx) cl _]
    rw [show index + (i - (min index cl.length + count)) = i - count from by
      omega]
  · exact absurd h2 (by omega)

theorem seedClist_ptrZero : clPtrAllZero seedClist := by
  unfold clPtrAllZero
  decide

theorem seedClist_inv : clInv seedClist := by
  unfold clInv
  decide

theorem findChildIdx_spec (cl : List CEntry) (label : List Nat) :
    ∀ used start idx, findChildIdx cl label start used = some idx →
      start ≤ idx ∧ labelEqB label (cl.getD idx zeroEntry).label = true := by
  intro used
  induction used with
  | zero =>
    intro start idx h
    simp [findChildIdx] at h
  | succ u ih =>
    intro start idx h
    simp only [findChildIdx] at h
    by_cases hc : labelEqB label (cl.getD start zeroEntry).label = true
    · rw [if_pos hc] at h
      injection h with h2
      subst h2
      exact ⟨Nat.le_refl _, hc⟩
    · rw [if_neg hc] at h
      obtain ⟨h1, h2⟩ := ih (start + 1) idx h
      exact ⟨by omega, h2⟩

theorem findChildIdx_lt (cl : List CEntry) (label : List Nat)
    (hhd : label.headD 0 ≠ 0) :
    ∀ used start idx, findChildIdx cl label start used = some idx →
      idx < cl.length := by
  intro used start idx h
  obtain ⟨-, heq⟩ := findChildIdx_spec cl label used start idx h
  by_contra hge
  push_neg at hge
  rw [List.getD_eq_getElem?_getD, List.getElem?_eq_none hge] at heq
  simp [labelEqB, zeroEntry] at heq
  rw [List.headD_eq_head?_getD] at hhd
  exact hhd heq.1

theorem getD_set_self (l : List CEntry) (i : Nat) (v : CEntry)
    (h : i < l.length) : (l.set i v).getD i zeroEntry = v := by
  rw [List.getD_eq_getElem?_getD, List.getElem?_set_self h]
  rfl

theorem set_upd_ptr0 (cl : List CEntry) (i : Nat) (v : CEntry)
    (hv : v.pointer = (cl.getD i zeroEntry).pointer) :
    ((cl.set i v).getD 0 zeroEntry).pointer
      = (cl.getD 0 zeroEntry).pointer := by
  by_cases h : i = 0
  · subst h
    by_cases hl : 0 < cl.length
    · rw [getD_set_self _ _ _ hl, hv]
    · rw [List.getD_eq_getElem?_getD,
        List.getElem?_eq_none (by rw [List.length_set]; omega),
        List.getD_eq_getElem?_getD, List.getElem?_eq_none (by omega)]
  · rw [getD_set_ne _ _ _ _ h]

theorem set_upd_inv (cl : List CEntry) (i : Nat) (v : CEntry) (hinv : clInv cl)
    (hci : v.childIndex = (cl.getD i zeroEntry).childIndex)
    (hmono : (v.childAllocated ≠ 0 ∨ v.childUsed ≠ 0) →
      ((cl.getD i zeroEntry).childAllocated ≠ 0 ∨
        (cl.getD i zeroEntry).childUsed ≠ 0))
    (hua : v.childUsed ≤ v.childAllocated)
    (hreg : v.childAllocated ≤ (cl.getD i zeroEntry).childAllocated) :
    clInv (cl.set i v) := by
  obtain ⟨hl, hI⟩ := hinv
  refine ⟨by rw [List.length_set]; exact hl, ?_⟩
  intro j hj
  rw [List.length_set] at hj
  by_cases hij : i = j
  · subst hij
    rw [getD_set_self _ _ _ hj]
    obtain ⟨ha, hb⟩ := hI i hj
    refine ⟨hua, fun hcond => ?_⟩
    obtain ⟨h1, h2⟩ := hb (hmono hcond)
    rw [hci, List.length_set]
    exact ⟨h1, by omega⟩
  · rw [getD_set_ne _ _ _ _ hij]
    obtain ⟨ha, hb⟩ := hI j hj
    refine ⟨ha, fun hcond => ?_⟩
    obtain ⟨h1, h2⟩ := hb hcond
    rw [List.length_set]
    exact ⟨h1, h2⟩

theorem setPointer_len (cl : List CEntry) (i v : Nat) :
    (setPointer cl i v).length = cl.length := by
  unfold setPointer
  rw [List.length_set]

theorem setPointer_inv (cl : List CEntry) (i v : Nat) (hinv : clInv cl) :
    clInv (setPointer cl i v) := by
  have hua : (cl.getD i zeroEntry).childUsed
      ≤ (cl.getD i zeroEntry).childAllocated := by
    rcases Nat.lt_or_ge i cl.length with h | h
    · exact (hinv.2 i h).1
    · rw [List.getD_eq_getElem?_getD, List.getElem?_eq_none h]
      exact Nat.le_refl _
  unfold setPointer
  exact set_upd_inv cl i _ hinv rfl (fun h => h) hua (Nat.le_refl _)

theorem clist_open_inv (cl : List CEntry) (index count : Nat)
    (hinv : clInv cl) (hidx1 : 1 ≤ index) (hidx2 : index ≤ cl.length) :
    clInv (clist_open cl index count).1 := by
  obtain ⟨hl, hI⟩ := hinv
  have hlen := clist_open_len cl index count
  refine ⟨by omega, ?_⟩
  intro i hi
  rw [hlen] at hi
  rcases Nat.lt_or_ge i index with h1 | h1
  · have hil : i < cl.length := by omega
    obtain ⟨ha, hb⟩ := hI i hil
    rw [clist_open_getD_low cl index count hidx1 i h1 hil]
    by_cases hc : index ≤ (cl.getD i zeroEntry).childIndex ∧ index < cl.length
    · rw [if_pos hc]
      refine ⟨ha, fun hcond => ?_⟩
      obtain ⟨hd1, hd2⟩ := hb hcond
      constructor
      · show i < (cl.getD i zeroEntry).childIndex + count
        omega
      · show (cl.getD i zeroEntry).childIndex + count
            + (cl.getD i zeroEntry).childAllocated
          ≤ (clist_open cl index count).1.length
        omega
    · rw [if_neg hc]
      refine ⟨ha, fun hcond => ?_⟩
      obtain ⟨hd1, hd2⟩ := hb hcond
      exact ⟨hd1, by omega⟩
  · rcases Nat.lt_or_ge i (index + count) with h2 | h2
    · rw [clist_open_getD_mid cl index count hidx2 i h1 h2]
      exact ⟨Nat.le_refl _, fun hcond => by
        rcases hcond with hc | hc <;> exact absurd rfl hc⟩
    · have hge : i - count < cl.length := by omega
      obtain ⟨ha, hb⟩ := hI (i - count) hge
      rw [clist_open_getD_high cl index count hidx1 i h2 hge]
      by_cases hc : index ≤ (cl.getD (i - count) zeroEntry).childIndex
      · rw [if_pos hc]
        refine ⟨ha, fun hcond => ?_⟩
        obtain ⟨hd1, hd2⟩ := hb hcond
        constructor
        · show i < (cl.getD (i - count) zeroEntry).childIndex + count
          omega
        · show (cl.getD (i - count) zeroEntry).childIndex + count
              + (cl.getD (i - count) zeroEntry).childAllocated
            ≤ (clist_open cl index count).1.length
          omega
      · rw [if_neg hc]
        refine ⟨ha, fun hcond => ?_⟩
        obtain ⟨hd1, hd2⟩ := hb hcond
        exact absurd hd1 (by omega)

theorem clist_open_ptr0 (cl : List CEntry) (index count : Nat)
    (hidx1 : 1 ≤ index) (hl : 1 ≤ cl.length) :
    ((clist_open cl index count).1.getD 0 zeroEntry).pointer
      = (cl.getD 0 zeroEntry).pointer := by
  rw [clist_open_getD_low cl index count hidx1 0 (by omega) (by omega)]
  by_cases hc : index ≤ (cl.getD 0 zeroEntry).childIndex ∧ index < cl.length
  · rw [if_pos hc]
  · rw [if_neg hc]

theorem clist_open_ptrZero (cl : List CEntry) (index count : Nat)
    (hz : clPtrAllZero cl) : clPtrAllZero (clist_open cl index count).1 := by
  intro e he
  unfold clist_open at he
  by_cases h : index < cl.length
  · rw [if_pos h] at he
    dsimp only at he
    rcases List.mem_append.mp he with h1 | h1
    · rcases List.mem_append.mp h1 with h2 | h2
      · rcases List.mem_map.mp (List.mem_of_mem_take h2) with ⟨e0, he0, heq⟩
        subst heq
        by_cases hb : index ≤ e0.childIndex
        · rw [if_pos hb]
          exact hz e0 he0
        · rw [if_neg hb]
          exact hz e0 he0
      · rw [List.eq_of_mem_replicate h2]
        rfl
    · rcases List.mem_map.mp (List.mem_of_mem_drop h1) with ⟨e0, he0, heq⟩
      subst heq
      by_cases hb : index ≤ e0.childIndex
      · rw [if_pos hb]
        exact hz e0 he0
      · rw [if_neg hb]
        exact hz e0 he0
  · rw [if_neg h] at he
    dsimp only at he
    rcases List.mem_append.mp he with h1 | h1
    · exact hz e h1
    · rw [List.eq_of_mem_replicate h1]
      rfl

theorem clPtrAllZero_getD (cl : List CEntry) (hz : clPtrAllZero cl) (i : Nat) :
    (cl.getD i zeroEntry).pointer = 0 := by
  rcases getD_mem_or cl i with h | h
  · exact hz _ h
  · rw [h]
    rfl

theorem set_ptrZero (cl : List CEntry) (i : Nat) (v : CEntry)
    (hz : clPtrAllZero cl) (hv : v.pointer = 0) :
    clPtrAllZero (cl.set i v) := by
  intro e he
  rcases List.mem_or_eq_of_mem_set he with h | h
  · exact hz e h
  · rw [h]
    exact hv

theorem clist_makeRoom_spec (cl1 : List CEntry) (parent : Nat)
    (hinv : clInv cl1) (hp : parent < cl1.length)
    (hci : parent < (cl1.getD parent zeroEntry).childIndex)
    (hreg : (cl1.getD parent zeroEntry).childIndex
        + (cl1.getD parent zeroEntry).childAllocated ≤ cl1.length)
    (hfix : (cl1.getD parent zeroEntry).childAllocated = 0 →
      (cl1.getD parent zeroEntry).childIndex = cl1.length) :
    clInv (clist_makeRoom cl1 parent).1 ∧
    parent < (clist_makeRoom cl1 parent).2 ∧
    (clist_makeRoom cl1 parent).2 < (clist_makeRoom cl1 parent).1.length ∧
    parent < (clist_makeRoom cl1 parent).1.length ∧
    ((clist_makeRoom cl1 parent).1.getD parent zeroEntry).childUsed + 1
      ≤ ((clist_makeRoom cl1 parent).1.getD parent zeroEntry).childAllocated ∧
    ((clist_makeRoom cl1 parent).1.getD 0 zeroEntry).pointer
      = (cl1.getD 0 zeroEntry).pointer := by
  have hua := (hinv.2 parent hp).1
  have hl := hinv.1
  unfold clist_makeRoom
  by_cases hcase : (cl1.getD parent zeroEntry).childAllocated
      ≤ (cl1.getD parent zeroEntry).childUsed
  · rw [if_pos hcase]
    dsimp only
    set I := (cl1.getD parent zeroEntry).childIndex
      + (cl1.getD parent zeroEntry).childUsed with hIdef
    set C := if (cl1.getD parent zeroEntry).childAllocated ≠ 0 then
      (cl1.getD parent zeroEntry).childAllocated else 1 with hCdef
    have hC1 : 1 ≤ C := by
      rw [hCdef]
      by_cases h0 : (cl1.getD parent zeroEntry).childAllocated ≠ 0
      · rw [if_pos h0]
        omega
      · rw [if_neg h0]
    have hI1 : 1 ≤ I := by
      rw [hIdef]
      omega
    have hI2 : I ≤ cl1.length := by
      rw [hIdef]
      omega
    have hOlen := clist_open_len cl1 I C
    have hOidx := clist_open_idx cl1 I C
    have hOinv := clist_open_inv cl1 I C hinv hI1 hI2
    have hOptr0 := clist_open_ptr0 cl1 I C hI1 hl
    have hplow := clist_open_getD_low cl1 I C hI1 parent
      (by rw [hIdef]; omega) hp
    have hPeq : (clist_open cl1 I C).1.getD parent zeroEntry
        = cl1.getD parent zeroEntry := by
      rw [hplow, if_neg]
      rintro ⟨hb1, hb2⟩
      by_cases h0 : (cl1.getD parent zeroEntry).childAllocated = 0
      · have := hfix h0
        omega
      · omega
    rw [hPeq, hOidx]
    refine ⟨?_, by omega, ?_, ?_, ?_, ?_⟩
    · obtain ⟨hol, hoI⟩ := hOinv
      refine ⟨by rw [List.length_set, hOlen]; omega, ?_⟩
      intro j hj
      rw [List.length_set] at hj
      by_cases hpj : parent = j
      · subst hpj
        rw [getD_set_self _ _ _ hj]
        refine ⟨?_, fun hcond => ⟨?_, ?_⟩⟩
        · show (cl1.getD parent zeroEntry).childUsed
            ≤ (cl1.getD parent zeroEntry).childAllocated + C
          omega
        · show parent < (cl1.getD parent zeroEntry).childIndex
          omega
        · rw [List.length_set, hOlen]
          show (cl1.getD parent zeroEntry).childIndex
              + ((cl1.getD parent zeroEntry).childAllocated + C)
            ≤ cl1.length + C
          omega
      · rw [getD_set_ne _ _ _ _ hpj]
        obtain ⟨ha, hb⟩ := hoI j hj
        refine ⟨ha, fun hcond => ?_⟩
        obtain ⟨h1, h2⟩ := hb hcond
        rw [List.length_set]
        exact ⟨h1, h2⟩
    · rw [List.length_set, hOlen]
      omega
    · rw [List.length_set, hOlen]
      omega
    · rw [getD_set_self _ _ _ (by rw [hOlen]; omega)]
      show (cl1.getD parent zeroEntry).childUsed + 1
        ≤ (cl1.getD parent zeroEntry).childAllocated + C
      rw [hCdef]
      by_cases h0 : (cl1.getD parent zeroEntry).childAllocated ≠ 0
      · rw [if_pos h0]
        omega
      · rw [if_neg h0]
        omega
    · exact (set_upd_ptr0 _ parent _ (by rw [hPeq])).trans hOptr0
  · rw [if_neg hcase]
    dsimp only
    exact ⟨hinv, by omega, by omega, hp, by omega, rfl⟩

theorem clist_place_spec (cl2 : List CEntry) (parent index2 : Nat)
    (label : List Nat) (hinv : clInv cl2) (hp : parent < cl2.length)
    (hpi : parent < index2) (hi2 : index2 < cl2.length)
    (hua : (cl2.getD parent zeroEntry).childUsed + 1
      ≤ (cl2.getD parent zeroEntry).childAllocated) :
    clInv (clist_place cl2 parent index2 label).1 ∧
    (clist_place cl2 parent index2 label).2 = index2 ∧
    (clist_place cl2 parent index2 label).1.length = cl2.length ∧
    ((clist_place cl2 parent index2 label).1.getD 0 zeroEntry).pointer
      = (cl2.getD 0 zeroEntry).pointer := by
  unfold clist_place
  dsimp only
  have hinv3 : clInv (cl2.set parent { cl2.getD parent zeroEntry with
      childUsed := (cl2.getD parent zeroEntry).childUsed + 1 }) := by
    obtain ⟨hl, hI⟩ := hinv
    refine ⟨by rw [List.length_set]; exact hl, ?_⟩
    intro j hj
    rw [List.length_set] at hj
    by_cases hpj : parent = j
    · subst hpj
      rw [getD_set_self _ _ _ hj]
      obtain ⟨ha, hb⟩ := hI parent hj
      refine ⟨?_, fun hcond => ?_⟩
      · show (cl2.getD parent zeroEntry).childUsed + 1
          ≤ (cl2.getD parent zeroEntry).childAllocated
        exact hua
      · obtain ⟨h1, h2⟩ := hb (Or.inl (by omega))
        rw [List.length_set]
        exact ⟨h1, h2⟩
    · rw [getD_set_ne _ _ _ _ hpj]
      obtain ⟨ha, hb⟩ := hI j hj
      refine ⟨ha, fun hcond => ?_⟩
      obtain ⟨h1, h2⟩ := hb hcond
      rw [List.length_set]
      exact ⟨h1, h2⟩
  have hlen3 : (cl2.set parent { cl2.getD parent zeroEntry with
      childUsed := (cl2.getD parent zeroEntry).childUsed + 1 }).length
      = cl2.length := List.length_set _ _ _
  refine ⟨?_, rfl, ?_, ?_⟩
  · refine set_upd_inv _ index2 _ hinv3 rfl (fun h => h) ?_ (Nat.le_refl _)
    exact (hinv3.2 index2 (by rw [hlen3]; exact hi2)).1
  · rw [List.length_set, hlen3]
  · refine Eq.trans ?_ (set_upd_ptr0 cl2 parent { cl2.getD parent zeroEntry with
        childUsed := (cl2.getD parent zeroEntry).childUsed + 1 } rfl)
    exact set_upd_ptr0 _ index2 _ rfl

theorem clist_makeRoom_ptrZero (cl1 : List CEntry) (parent : Nat)
    (hz : clPtrAllZero cl1) : clPtrAllZero (clist_makeRoom cl1 parent).1 := by
  unfold clist_makeRoom
  by_cases hcase : (cl1.getD parent zeroEntry).childAllocated
      ≤ (cl1.getD parent zeroEntry).childUsed
  · rw [if_pos hcase]
    dsimp only
    refine set_ptrZero _ _ _ (clist_open_ptrZero _ _ _ hz) ?_
    exact clPtrAllZero_getD _ (clist_open_ptrZero _ _ _ hz) _
  · rw [if_neg hcase]
    exact hz

theorem clist_place_ptrZero (cl2 : List CEntry) (parent index2 : Nat)
    (label : List Nat) (hz : clPtrAllZero cl2) :
    clPtrAllZero (clist_place cl2 parent index2 label).1 := by
  unfold clist_place
  dsimp only
  have hz3 : clPtrAllZero (cl2.set parent { cl2.getD parent zeroEntry with
      childUsed := (cl2.getD parent zeroEntry).childUsed + 1 }) :=
    set_ptrZero _ _ _ hz (clPtrAllZero_getD _ hz _)
  exact set_ptrZero _ _ _ hz3 (clPtrAllZero_getD _ hz3 _)

theorem clist_get_child_ptrZero (cl : List CEntry) (parent : Nat)
    (label : List Nat) (hz : clPtrAllZero cl) :
    clPtrAllZero (clist_get_child cl parent label).1 := by
  unfold clist_get_child
  rcases hfind : (if (cl.getD parent zeroEntry).childUsed ≠ 0 then
      findChildIdx cl label (cl.getD parent zeroEntry).childIndex
        (cl.getD parent zeroEntry).childUsed
    else none) with _ | idx
  · rw [Option.elim_none]
    refine clist_place_ptrZero _ _ _ _ (clist_makeRoom_ptrZero _ _ ?_)
    by_cases h0 : (cl.getD parent zeroEntry).childAllocated = 0
    · rw [if_pos h0]
      exact set_ptrZero _ _ _ hz (clPtrAllZero_getD _ hz _)
    · rw [if_neg h0]
      exact hz
  · rw [Option.elim_some]
    exact hz

theorem clist_get_child_spec (cl : List CEntry) (parent : Nat)
    (label : List Nat) (hinv : clInv cl) (hp : parent < cl.length)
    (hhd : label.headD 0 ≠ 0) :
    clInv (clist_get_child cl parent label).1 ∧
    1 ≤ (clist_get_child cl parent label).2 ∧
    (clist_get_child cl parent label).2
      < (clist_get_child cl parent label).1.length ∧
    ((clist_get_child cl parent label).1.getD 0 zeroEntry).pointer
      = (cl.getD 0 zeroEntry).pointer := by
  unfold clist_get_child
  rcases hfind : (if (cl.getD parent zeroEntry).childUsed ≠ 0 then
      findChildIdx cl label (cl.getD parent zeroEntry).childIndex
        (cl.getD parent zeroEntry).childUsed
    else none) with _ | idx
  · -- not found: the insertion path
    rw [Option.elim_none]
    have hfixinv : clInv (if (cl.getD parent zeroEntry).childAllocated = 0 then
        cl.set parent
          { cl.getD parent zeroEntry with childIndex := cl.length }
      else cl) := by
      by_cases h0 : (cl.getD parent zeroEntry).childAllocated = 0
      · rw [if_pos h0]
        obtain ⟨hl, hI⟩ := hinv
        refine ⟨by rw [List.length_set]; exact hl, ?_⟩
        intro j hj
        rw [List.length_set] at hj
        by_cases hpj : parent = j
        · subst hpj
          rw [getD_set_self _ _ _ hj]
          refine ⟨?_, fun hcond => ⟨?_, ?_⟩⟩
          · show (cl.getD parent zeroEntry).childUsed
              ≤ (cl.getD parent zeroEntry).childAllocated
            exact (hI parent hj).1
          · show parent < cl.length
            exact hj
          · rw [List.length_set]
            show cl.length + (cl.getD parent zeroEntry).childAllocated
              ≤ cl.length
            omega
        · rw [getD_set_ne _ _ _ _ hpj]
          obtain ⟨ha, hb⟩ := hI j hj
          refine ⟨ha, fun hcond => ?_⟩
          obtain ⟨h1, h2⟩ := hb hcond
          rw [List.length_set]
          exact ⟨h1, h2⟩
      · rw [if_neg h0]
        exact hinv
    have hfixlen : (if (cl.getD parent zeroEntry).childAllocated = 0 then
        cl.set parent
          { cl.getD parent zeroEntry with childIndex := cl.length }
      else cl).length = cl.length := by
      by_cases h0 : (cl.getD parent zeroEntry).childAllocated = 0
      · rw [if_pos h0, List.length_set]
      · rw [if_neg h0]
    have hfixp : parent < (if (cl.getD parent zeroEntry).childAllocated = 0
        then cl.set parent
          { cl.getD parent zeroEntry with childIndex := cl.length }
      else cl).length := by
      rw [hfixlen]
      exact hp
    have hfixci : parent < ((if (cl.getD parent zeroEntry).childAllocated = 0
        then cl.set parent
          { cl.getD parent zeroEntry with childIndex := cl.length }
      else cl).getD parent zeroEntry).childIndex := by
      by_cases h0 : (cl.getD parent zeroEntry).childAllocated = 0
      · rw [if_pos h0, getD_set_self _ _ _ hp]
        show parent < cl.length
        exact hp
      · rw [if_neg h0]
        exact ((hinv.2 parent hp).2 (Or.inl h0)).1
    have hfixreg : ((if (cl.getD parent zeroEntry).childAllocated = 0
        then cl.set parent
          { cl.getD parent zeroEntry with childIndex := cl.length }
      else cl).getD parent zeroEntry).childIndex
        + ((if (cl.getD parent zeroEntry).childAllocated = 0
        then cl.set parent
          { cl.getD parent zeroEntry with childIndex := cl.length }
      else cl).getD parent zeroEntry).childAllocated
        ≤ (if (cl.getD parent zeroEntry).childAllocated = 0
        then cl.set parent
          { cl.getD parent zeroEntry with childIndex := cl.length }
      else cl).length := by
      by_cases h0 : (cl.getD parent zeroEntry).childAllocated = 0
      · rw [if_pos h0, List.length_set,
          getD_set_self _ _ _ hp]
        show cl.length + (cl.getD parent zeroEntry).childAllocated ≤ cl.length
        omega
      · rw [if_neg h0]
        exact ((hinv.2 parent hp).2 (Or.inl h0)).2
    have hfixfix : ((if (cl.getD parent zeroEntry).childAllocated = 0
        then cl.set parent
          { cl.getD parent zeroEntry with childIndex := cl.length }
      else cl).getD parent zeroEntry).childAllocated = 0 →
        ((if (cl.getD parent zeroEntry).childAllocated = 0
        then cl.set parent
          { cl.getD parent zeroEntry with childIndex := cl.length }
      else cl).getD parent zeroEntry).childIndex
        = (if (cl.getD parent zeroEntry).childAllocated = 0
        then cl.set parent
          { cl.getD parent zeroEntry with childIndex := cl.length }
      else cl).length := by
      intro h00
      by_cases h0 : (cl.getD parent zeroEntry).childAllocated = 0
      · rw [if_pos h0, List.length_set,
          getD_set_self _ _ _ hp]
      · rw [if_neg h0] at h00
        exact absurd h00 h0
    obtain ⟨hRinv, hRpi, hRilen, hRplen, hRua, hRptr⟩ :=
      clist_makeRoom_spec _ parent hfixinv hfixp hfixci hfixreg hfixfix
    obtain ⟨hPinv, hPidx, hPlen, hPptr⟩ :=
      clist_place_spec _ parent _ label hRinv hRplen hRpi hRilen hRua
    refine ⟨hPinv, by omega, ?_, ?_⟩
    · rw [hPidx, hPlen]
      exact hRilen
    · refine hPptr.trans (hRptr.trans ?_)
      by_cases h0 : (cl.getD parent zeroEntry).childAllocated = 0
      · rw [if_pos h0]
        exact set_upd_ptr0 _ parent _ rfl
      · rw [if_neg h0]
  · -- found among the existing children
    rw [Option.elim_some]
    have hused : (cl.getD parent zeroEntry).childUsed ≠ 0 := by
      by_contra h0
      rw [if_neg (not_ne_iff.mpr h0)] at hfind
      exact Option.noConfusion hfind
    rw [if_pos hused] at hfind
    obtain ⟨hge, -⟩ := findChildIdx_spec cl label _ _ _ hfind
    have hlt := findChildIdx_lt cl label hhd _ _ _ hfind
    have hci := (hinv.2 parent hp).2 (Or.inr hused)
    exact ⟨hinv, by omega, hlt, rfl⟩

theorem setPointer_getD0 (cl : List CEntry) (i v : Nat) (hi : 1 ≤ i) :
    ((setPointer cl i v).getD 0 zeroEntry).pointer
      = (cl.getD 0 zeroEntry).pointer := by
  unfold setPointer
  rw [getD_set_ne _ _ _ _ (by omega)]

theorem encAddLoop_inv (name : DnsName) (off : Nat) :
    ∀ r cl child, clInv cl → child < cl.length →
      (∀ j, j < r → (name.labels.drop (name.offset.getD j 0)).headD 0 ≠ 0) →
      (cl.getD 0 zeroEntry).pointer = 0 →
      clInv (encAddLoop name off cl child r).1 ∧
      ((encAddLoop name off cl child r).1.getD 0 zeroEntry).pointer = 0 := by
  intro r
  induction r with
  | zero =>
    intro cl child hinv hchild hlab hptr
    exact ⟨hinv, hptr⟩
  | succ r ih =>
    intro cl child hinv hchild hlab hptr
    have hhd := hlab r (by omega)
    obtain ⟨hGinv, hG1, hGlt, hGptr⟩ := clist_get_child_spec cl child
      (name.labels.drop (name.offset.getD r 0)) hinv hchild hhd
    refine ih _ _ (setPointer_inv _ _ _ hGinv) ?_
      (fun j hj => hlab j (by omega)) ?_
    · rw [setPointer_len]
      exact hGlt
    · rw [setPointer_getD0 _ _ _ hG1, hGptr, hptr]

theorem dns_encode_name_fresh (buf : SendBuf) (off : Nat) (n : DnsName)
    (hw : WfName n) (hlp : 1 ≤ n.length) :
    ∃ cl', dns_encode_name seedClist buf off n
      = (cl', writeList buf off n.labels, off + n.length) := by
  have hlen := hw.1
  have hcnteq := hw.2.1
  have hc1 := hw.2.2.1
  have hlen256 := hw.2.2.2.2.1
  have hoff0 := hw.2.2.2.2.2.1
  have hlast := hw.2.2.2.2.2.2.1
  have hterm := hw.2.2.2.2.2.2.2.1
  have hchain := hw.2.2.2.2.2.2.2.2.2
  unfold dns_encode_name
  by_cases hcle : n.count ≤ 1
  · rw [if_pos hcle]
    have hcount1 : n.count = 1 := by omega
    have hlen1 : n.length = 1 := by
      have h00 := hlast
      rw [hcount1, show (1 : Nat) - 1 = 0 from rfl] at h00
      omega
    have hlabels : n.labels = [0] := by
      have hll : n.labels.length = 1 := by omega
      rcases hlab : n.labels with _ | ⟨a, t⟩
      · rw [hlab] at hll
        simp at hll
      · rw [hlab] at hll
        simp at hll
        have ha : a = 0 := by
          have := hterm
          rw [hlen1, hlab] at this
          simpa using this
        rw [ha, hll]
    refine ⟨seedClist, ?_⟩
    rw [hlabels, hlen1]
    rfl
  · rw [if_neg hcle]
    have hc2 : n.count - 1 = (n.count - 2) + 1 := by omega
    rw [hc2]
    simp only [encNameLoop]
    have hoklt : n.offset.getD (n.count - 2) 0 < n.labels.length := by
      have := wf_offset_le n hw (n.count - 2) (by omega)
      omega
    have hhd : (n.labels.drop (n.offset.getD (n.count - 2) 0)).headD 0
        ≠ 0 := by
      rw [headD_drop _ _ hoklt]
      have := (hchain (n.count - 2) (by omega)).1
      omega
    have hslen : (0 : Nat) < seedClist.length := by decide
    obtain ⟨hGinv, hG1, hGlt, hGptr⟩ := clist_get_child_spec seedClist 0
      (n.labels.drop (n.offset.getD (n.count - 2) 0)) seedClist_inv hslen hhd
    have hz := clist_get_child_ptrZero seedClist 0
      (n.labels.drop (n.offset.getD (n.count - 2) 0)) seedClist_ptrZero
    have hGchildptr : ((clist_get_child seedClist 0
        (n.labels.drop (n.offset.getD (n.count - 2) 0))).1.getD
        (clist_get_child seedClist 0
          (n.labels.drop (n.offset.getD (n.count - 2) 0))).2
        zeroEntry).pointer = 0 := clPtrAllZero_getD _ hz _
    rw [if_pos hGchildptr]
    simp only [encNamePart2]
    have hcopy : n.offset.getD (n.count - 2) 0
        + n.labels.getD (n.offset.getD (n.count - 2) 0) 0 + 1
        = n.length - 1 := by
      have hstep := (hchain (n.count - 2) (by omega)).2.2
      rw [show n.count - 2 + 1 = n.count - 1 from by omega] at hstep
      omega
    rw [hcopy]
    have hF := encAddLoop_inv n off (n.count - 2)
      (setPointer
        (clist_get_child seedClist 0
          (n.labels.drop (n.offset.getD (n.count - 2) 0))).1
        (clist_get_child seedClist 0
          (n.labels.drop (n.offset.getD (n.count - 2) 0))).2
        (OFFSET_TO_POINTER (off + n.offset.getD (n.count - 2) 0)))
      (clist_get_child seedClist 0
        (n.labels.drop (n.offset.getD (n.count - 2) 0))).2
      (setPointer_inv _ _ _ hGinv)
      (by rw [setPointer_len]; exact hGlt)
      (fun j hj => by
        have hjlt : n.offset.getD j 0 < n.labels.length := by
          have := wf_offset_le n hw j (by omega)
          omega
        rw [headD_drop _ _ hjlt]
        have := (hchain j (by omega)).1
        omega)
      (by
        rw [setPointer_getD0 _ _ _ hG1, hGptr]
        exact clPtrAllZero_getD _ seedClist_ptrZero _)
    rw [if_neg (not_ne_iff.mpr hF.2)]
    refine ⟨(encAddLoop n off
      (setPointer
        (clist_get_child seedClist 0
          (n.labels.drop (n.offset.getD (n.count - 2) 0))).1
        (clist_get_child seedClist 0
          (n.labels.drop (n.offset.getD (n.count - 2) 0))).2
        (OFFSET_TO_POINTER (off + n.offset.getD (n.count - 2) 0)))
      (clist_get_child seedClist 0
        (n.labels.drop (n.offset.getD (n.count - 2) 0))).2
      (n.count - 2)).1, ?_⟩
    have hsplit : writeList buf off n.labels
        = upd (writeList buf off (n.labels.take (n.length - 1)))
            (off + (n.length - 1)) 0 := by
      conv_lhs => rw [← take_pred_append n.labels (by omega)
        (by rw [← hlen]; exact hterm)]
      rw [writeList_append, List.length_take,
        Nat.min_eq_left (by omega), ← hlen]
      rfl
    rw [hsplit, show off + (n.length - 1) + 1 = off + n.length from by omega]

/-- C3: for every decodable single-name message, re-encoding the decoded
name with `dns_encode_name` from a freshly reset compression dictionary
writes exactly the name's expanded label bytes (`n.labels`), and decoding
the encoder's output yields that same expanded name again (round-trip law
for names). -/
theorem C3_name_roundtrip (p : Packet) (off : Nat) (n : DnsName) (nx : Nat)
    (buf : SendBuf) (out : Nat)
    (h : (dns_decode_name p off).res = some (n, nx)) :
    ∃ cl', dns_encode_name seedClist buf out n
        = (cl', writeList buf out n.labels, out + n.length) ∧
      (dns_decode_name ⟨out + n.length, writeList buf out n.labels⟩ out).res
        = some (n, out + n.length) := by
  obtain ⟨hw, hlp⟩ := dns_decode_name_wf p off n nx h
  obtain ⟨cl', henc⟩ := dns_encode_name_fresh buf out n hw hlp
  refine ⟨cl', henc, ?_⟩
  apply dns_decode_uncompressed _ out n hw hlp
  · intro j hj
    have hjl : j < n.labels.length := by
      rw [← hw.1]
      omega
    show writeList buf out n.labels (out + j) % 256 = n.labels.getD j 0
    rw [writeList_getD n.labels buf out j hjl]
    have hmem : n.labels.getD j 0 ∈ n.labels := by
      rw [List.getD_eq_getElem?_getD, List.getElem?_eq_getElem hjl]
      exact List.getElem_mem hjl
    exact Nat.mod_eq_of_lt (hw.2.2.2.2.2.2.2.2.1 _ hmem)
  · exact le_refl _

def pktC3 : Packet := pktOf
  [0, 0, 0, 0, 0, 0, 0, 0, 0, 0, 0, 0, 1, 97, 0, 1, 98, 0xC0, 12]

def nameC3 : DnsName := ⟨5, 3, [0, 2, 4], [1, 98, 1, 97, 0]⟩

theorem C3_name_roundtrip_witness :
    (dns_decode_name pktC3 15).res = some (nameC3, 19) ∧
    (∃ cl', dns_encode_name seedClist (fun _ => 0) 12 nameC3
        = (cl', writeList (fun _ => 0) 12 nameC3.labels, 12 + nameC3.length) ∧
      (dns_decode_name ⟨12 + nameC3.length,
          writeList (fun _ => 0) 12 nameC3.labels⟩ 12).res
        = some (nameC3, 12 + nameC3.length)) :=
  ⟨by decide, C3_name_roundtrip pktC3 15 nameC3 19 (fun _ => 0) 12 (by decide)⟩
